import Mathlib

/-!
Verification of the metroholidays calendar/run-labeling core
(`src/metroholidays/_metroholidays.py`, `MetroHolidays.load_calendar` and
`MetroHolidays._categorize`).

Dates are modelled as Unix day numbers (`Int`); `weekday d = (d + 3) % 7`
matches Python's `date.weekday()` (0 = Monday, 6 = Sunday; day 0 =
1970-01-01 was a Thursday).  Python lists / numpy 1-d arrays are modelled
as `List`, with `List.getD`/`List.set` for reads and writes (both total;
in the modelled loops every index is in range except for the negative
indices of the back-fill, which numpy wraps — see `pyIdx`).  The Python
`for k in range(a, b)` loops are modelled as `List.foldl` over
`List.range' a (b - a)`, the list `[a, a+1, ..., b-1]`.
-/

deriving instance DecidableEq for Except

namespace MetroHolidays

/-- numpy indexing semantics for a possibly negative index into an array of
size `n`: an index `i` with `-n ≤ i < n` resolves to `i % n` (so `-1` is the
last element).  (numpy raises for `i < -n`; with the programme's weight
values `0..2` the back-fill index never goes below `-1`.) -/
def pyIdx (n : Nat) (i : Int) : Nat := (i % (n : Int)).toNat

/-- `for j in range(1, last+1): counts[k-j] = last` — the back-fill loop of
`_categorize`'s first sweep. -/
def backfillLoop (cnts : List Nat) (k last : Nat) : List Nat :=
  (List.range' 1 last).foldl
    (fun (c : List Nat) (j : Nat) => c.set (pyIdx c.length ((k : Int) - (j : Int))) last) cnts

/-- One iteration of `_categorize`'s first sweep at index `k`, on the state
`(counts, last)`:
`if v > 0: last += 1; counts[k] = last  else: back-fill; last = 0`. -/
def catStep1 (s : List Nat × Nat) (k : Nat) : List Nat × Nat :=
  if 0 < s.1.getD k 0 then (s.1.set k (s.2 + 1), s.2 + 1)
  else (backfillLoop s.1 k s.2, 0)

/-- The first sweep of `_categorize` (run-length propagation):
`last = int(counts[0])`, then `for k in range(1, len(counts))`. -/
def propagate (cnts : List Nat) : List Nat :=
  ((List.range' 1 (cnts.length - 1)).foldl catStep1 (cnts, cnts.getD 0 0)).1

/-- One iteration of `_categorize`'s second sweep at index `k`, on the state
`(days, last)`: the `v == 0` / `elif v >= min_days` branch, then `last = v`. -/
def catStep2 (m : Nat) (cnts : List Nat) (s : List String × Nat) (k : Nat) :
    List String × Nat :=
  let v := cnts.getD k 0
  (if v = 0 then (if m ≤ s.2 then s.1.set (k - 1) "last_day" else s.1)
   else if m ≤ v then
     ((if s.2 = 0 then s.1.set (k - 1) "first_day" else s.1).set k "middle_days")
   else s.1,
   v)

/-- The second sweep of `_categorize` (boundary labeling):
`last = int(counts[0])`, then `for k in range(1, len(counts))`. -/
def labelSweep (m : Nat) (cnts : List Nat) (days : List String) : List String :=
  ((List.range' 1 (cnts.length - 1)).foldl (catStep2 m cnts) (days, cnts.getD 0 0)).1

/-- The spec's wording of one step of the second sweep (§4.2 step 3): the
conditions `v == 0 ∧ last ≥ min_days` and `v ≥ min_days` are two independent
`if`s rather than an `if`/`elif`. -/
def specStep2 (m : Nat) (cnts : List Nat) (s : List String × Nat) (k : Nat) :
    List String × Nat :=
  let v := cnts.getD k 0
  let d1 := if v = 0 ∧ m ≤ s.2 then s.1.set (k - 1) "last_day" else s.1
  (if m ≤ v then ((if s.2 = 0 then d1.set (k - 1) "first_day" else d1).set k "middle_days")
   else d1,
   v)

/-- The spec's second sweep, from `last = weight[0]`. -/
def specLabelSweep (m : Nat) (cnts : List Nat) (days : List String) : List String :=
  ((List.range' 1 (cnts.length - 1)).foldl (specStep2 m cnts) (days, cnts.getD 0 0)).1

/-- `'others'` default, overridden by weekday: 4 → Friday, 5 → Saturday,
6 → Sunday (as in `_categorize`'s `type` column). -/
def dayTypeDefault (w : Nat) : String :=
  if w = 4 then "Friday" else if w = 5 then "Saturday" else if w = 6 then "Sunday" else "others"

/-- `tmp = (1 if wday in [5, 6] else 0) + holiday_flag` — the per-day base
weight fed to the first sweep. -/
def baseWeights (flags wdays : List Nat) : List Nat :=
  List.zipWith (fun f w => f + (if w = 5 ∨ w = 6 then 1 else 0)) flags wdays

/-- Failure kinds of the modelled pipeline.  `invalidRange` is the spec's
taxonomy kind for an inverted range; the code never raises it.
`missingColumn c` models the pandas `KeyError` raised by
`dfp[['date'] + country_codes]` when a requested column is absent from the
pivot; `emptyIndex` models the `IndexError` of `counts[0]` on a zero-length
date range. -/
inductive CalError where
  | invalidRange
  | missingColumn (c : String)
  | emptyIndex
  deriving DecidableEq

/-- `_categorize` for one country: weekday defaults, base weights, the two
sweeps.  `flags` and `wdays` are the day-off column and the weekday of each
date of the (already dense) calendar index.  On an empty column Python
raises `IndexError` at `counts[0]`. -/
def categorize (flags wdays : List Nat) (minDays : Nat) : Except CalError (List String) :=
  if flags.isEmpty then .error .emptyIndex
  else .ok (labelSweep minDays (propagate (baseWeights flags wdays)) (wdays.map dayTypeDefault))

/-! ### Reference (spec-side) functional forms of the two sweeps -/

/-- Reference form of the first sweep, written from the spec's run
semantics: `c` pending positions of an open run (holding ascending counts)
followed by the unprocessed input.  A closed run of length `L` comes out as
`L` copies of `L`; a run still open at the end keeps ascending counts
`1..c`. -/
def sweepSeg (c : Nat) : List Nat → List Nat
  | [] => List.range' 1 c
  | v :: rest =>
    if v = 0 then List.replicate c c ++ 0 :: sweepSeg 0 rest
    else sweepSeg (c + 1) rest

/-- Reference run-length propagation on a whole sequence. -/
def sweepRef (w : List Nat) : List Nat := sweepSeg 0 w

/-- Reference form of the second sweep: `prev` is the previous weight,
`pend` the still-revisable label of the previous position (the sweep writes
`first_day`/`last_day` one index behind the triggering day). -/
def sweep2Go (m : Nat) : Nat → String → List (Nat × String) → List String
  | _, pend, [] => [pend]
  | prev, pend, (v, d) :: rest =>
    if v = 0 then (if m ≤ prev then "last_day" else pend) :: sweep2Go m v d rest
    else if m ≤ v then (if prev = 0 then "first_day" else pend) :: sweep2Go m v "middle_days" rest
    else pend :: sweep2Go m v d rest

/-! ### Run statistics and label counting (for the round-trip claim) -/

/-- A label produced only by the long-holiday machinery. -/
def isSpecial (s : String) : Bool :=
  s == "first_day" || s == "middle_days" || s == "last_day"

/-- Number of days labeled `first_day`, `middle_days` or `last_day`. -/
def countSpecial (l : List String) : Nat := l.countP isSpecial

/-- Sum of the lengths of the maximal nonzero runs of length ≥ `m`
(`c` = length of the currently open run). -/
def runSumGo (m c : Nat) : List Nat → Nat
  | [] => if 1 ≤ c ∧ m ≤ c then c else 0
  | v :: rest =>
    if v = 0 then (if 1 ≤ c ∧ m ≤ c then c else 0) + runSumGo m 0 rest
    else runSumGo m (c + 1) rest

/-- Sum of the lengths of all maximal nonzero runs of `w` whose length is at
least `m`. -/
def runLenSum (m : Nat) (w : List Nat) : Nat := runSumGo m 0 w

/-- Number of maximal nonzero runs of length ≥ `m`. -/
def runCntGo (m c : Nat) : List Nat → Nat
  | [] => if 1 ≤ c ∧ m ≤ c then 1 else 0
  | v :: rest =>
    if v = 0 then (if 1 ≤ c ∧ m ≤ c then 1 else 0) + runCntGo m 0 rest
    else runCntGo m (c + 1) rest

/-- Number of maximal nonzero runs of `w` of length at least `m`. -/
def qualRunCount (m : Nat) (w : List Nat) : Nat := runCntGo m 0 w

/-! ### Guarded-index variant of the first sweep (for the out-of-bounds
reachability claim): identical to `backfillLoop`/`propagate` except that a
negative back-fill index fails instead of wrapping around. -/

/-- Back-fill with guarded indexing: `none` as soon as `k - j < 0`. -/
def backfillLoopChk (cnts : List Nat) (k last : Nat) : Option (List Nat) :=
  (List.range' 1 last).foldlM
    (fun (c : List Nat) (j : Nat) =>
      if (k : Int) - (j : Int) < 0 then none
      else some (c.set ((k : Int) - (j : Int)).toNat last)) cnts

/-- One guarded iteration of the first sweep. -/
def catStep1Chk (s : List Nat × Nat) (k : Nat) : Option (List Nat × Nat) :=
  if 0 < s.1.getD k 0 then some (s.1.set k (s.2 + 1), s.2 + 1)
  else (backfillLoopChk s.1 k s.2).map (·, 0)

/-- `propagate` with guarded back-fill indexing. -/
def propagateChk (cnts : List Nat) : Option (List Nat) :=
  ((List.range' 1 (cnts.length - 1)).foldlM catStep1Chk (cnts, cnts.getD 0 0)).map (·.1)

/-! ### The calendar assembler (`MetroHolidays.load_calendar`) -/

/-- Python `date.weekday()` on a Unix day number: 0 = Monday .. 6 = Sunday. -/
def weekday (d : Int) : Nat := ((d + 3) % 7).toNat

/-- One (date, country) row of the prepared holidays dataframe, i.e. one
record of the upstream `load_holidays` result after expanding its `dates`
list (the collaborator fetch is outside this core and is passed in). -/
structure HolidayRecord where
  date : Int
  country : String
  dayOff : Bool
  deriving DecidableEq

/-- `DEFAULT_COUNTRIES` of `_metroholidays.py`. -/
def DEFAULT_COUNTRIES : List String := ["jp", "cn", "kr", "tw", "us", "th"]

/-- `pd.date_range(date_from, date_to, freq='D')`: every day of the
inclusive range, ascending (empty when `date_from > date_to`). -/
def dateRange (dfrom dto : Int) : List Int :=
  (List.range (dto + 1 - dfrom).toNat).map (fun (i : Nat) => dfrom + (i : Int))

/-- One cell of the pivot table (`values='day_off', aggfunc=np.max`):
`none` when no record exists for this (date, country) pair, otherwise the
maximum `day_off` over its records. -/
def pivotCell (records : List HolidayRecord) (d : Int) (c : String) : Option Bool :=
  if records.any (fun r => r.date == d && r.country == c)
  then some (records.any (fun r => r.date == d && r.country == c && r.dayOff))
  else none

/-- The day-off flag after the left merge, the optional weekend overlay
(`df_calendar.loc[wday in [5,6], countries] = 1`) and `fillna(0)`. -/
def denseFlag (records : List HolidayRecord) (weekends : Bool) (d : Int) (c : String) : Nat :=
  if weekends && (weekday d == 5 || weekday d == 6) then 1
  else match pivotCell records d c with
    | some b => if b then 1 else 0
    | none => 0

/-- The sparse matrix marks (d, c) as a holiday: some record for that date
and country carries `day_off`. -/
def holidayMarked (records : List HolidayRecord) (d : Int) (c : String) : Bool :=
  records.any (fun r => r.date == d && r.country == c && r.dayOff)

/-- The returned table: calendar dates, one day-off flag column and one
day-type column per requested country (in request order). -/
structure CalTable where
  dates : List Int
  flagCols : List (String × List Nat)
  typeCols : List (String × List String)
  deriving DecidableEq

/-- `MetroHolidays.load_calendar` with the collaborator fetch result passed
in as `records`.  Faithful order of operations: country defaulting, pivot
and column selection (`dfp[['date'] + country_codes]` raises `KeyError` for
a requested country absent from the pivot), dense date range, left merge,
weekend overlay, `fillna(0)`, then `_categorize` per country. -/
def loadCalendar (dfrom dto : Int) (countryCodes : List String)
    (records : List HolidayRecord) (longHolidays : Nat) (weekends : Bool) :
    Except CalError CalTable :=
  let countries := if countryCodes.isEmpty then DEFAULT_COUNTRIES else countryCodes
  match countries.find? (fun c => !(records.any (fun r => r.country == c))) with
  | some c => .error (.missingColumn c)
  | none =>
    let dates := dateRange dfrom dto
    let wdays := dates.map weekday
    match countries.mapM (fun c =>
        (categorize (dates.map (fun d => denseFlag records weekends d c)) wdays
            longHolidays).map (fun ls => (c, ls))) with
    | .error e => .error e
    | .ok tcols =>
      .ok ⟨dates, countries.map (fun c => (c, dates.map (fun d => denseFlag records weekends d c))),
           tcols⟩

/-! ### Generic list helpers -/

theorem getD_set_eq {α : Type} (l : List α) (i : Nat) (x d : α) (h : i < l.length) :
    (l.set i x).getD i d = x := by
  rw [List.getD_eq_getElem?_getD, List.getElem?_set, if_pos rfl, if_pos h, Option.getD_some]

theorem getD_set_ne {α : Type} (l : List α) (i j : Nat) (x d : α) (h : i ≠ j) :
    (l.set i x).getD j d = l.getD j d := by
  rw [List.getD_eq_getElem?_getD, List.getElem?_set, if_neg h, ← List.getD_eq_getElem?_getD]

theorem take_set_of_le {α : Type} :
    ∀ (l : List α) (i j : Nat) (x : α), j ≤ i → (l.set i x).take j = l.take j
  | [], _, _, _, _ => rfl
  | _ :: _, _, 0, _, _ => by simp
  | a :: l, i + 1, j + 1, x, h => by
    rw [List.set_cons_succ, List.take_cons (by omega), List.take_cons (by omega)]
    simp only [Nat.add_sub_cancel]
    rw [take_set_of_le l i j x (by omega)]

theorem drop_set_self {α : Type} (l : List α) (i : Nat) (x : α) (h : i < l.length) :
    (l.set i x).drop i = x :: l.drop (i + 1) := by
  rw [List.drop_set, if_neg (by omega), Nat.sub_self, List.drop_eq_getElem_cons h,
    List.set_cons_zero]

theorem drop_set_of_lt {α : Type} (l : List α) (i j : Nat) (x : α) (h : i < j) :
    (l.set i x).drop j = l.drop j := by
  rw [List.drop_set, if_pos h]

/-! ### Length preservation through the two sweeps -/

theorem length_backfillLoop (cnts : List Nat) (k last : Nat) :
    (backfillLoop cnts k last).length = cnts.length := by
  unfold backfillLoop
  generalize List.range' 1 last = js
  induction js generalizing cnts with
  | nil => rfl
  | cons j js ih => rw [List.foldl_cons, ih, List.length_set]

theorem length_foldl_catStep1 (ks : List Nat) :
    ∀ s : List Nat × Nat, ((ks.foldl catStep1 s).1).length = s.1.length := by
  induction ks with
  | nil => intro _; rfl
  | cons k ks ih =>
    intro s
    rw [List.foldl_cons, ih]
    unfold catStep1
    split
    · rw [List.length_set]
    · rw [length_backfillLoop]

theorem length_propagate (cnts : List Nat) : (propagate cnts).length = cnts.length :=
  length_foldl_catStep1 ..

theorem length_catStep2 (m : Nat) (cnts : List Nat) (s : List String × Nat) (k : Nat) :
    ((catStep2 m cnts s k).1).length = s.1.length := by
  unfold catStep2
  dsimp only
  split
  · split <;> simp
  · split
    · split <;> simp
    · rfl

theorem length_foldl_catStep2 (m : Nat) (cnts : List Nat) (ks : List Nat) :
    ∀ s : List String × Nat, ((ks.foldl (catStep2 m cnts) s).1).length = s.1.length := by
  induction ks with
  | nil => intro _; rfl
  | cons k ks ih =>
    intro s
    rw [List.foldl_cons, ih, length_catStep2]

theorem length_labelSweep (m : Nat) (cnts : List Nat) (days : List String) :
    (labelSweep m cnts days).length = days.length :=
  length_foldl_catStep2 ..

/-! ### Characterization of the back-fill (no-wrap case) -/

theorem pyIdx_of_nonneg (n : Nat) (i : Int) (h0 : 0 ≤ i) (h : i < (n : Int)) :
    pyIdx n i = i.toNat := by
  unfold pyIdx
  rw [Int.emod_eq_of_lt h0 h]

/-- Generic form of the back-fill fold with the written value `val`
decoupled from the loop bound `c`: with `c ≤ k` the written indices
`k - 1, ..., k - c` stay in range (no wrap), and the back-fill overwrites
exactly the segment `[k - c, k)` with `val`. -/
theorem backfill_fold_eq :
    ∀ (c k val : Nat) (cnts : List Nat), c ≤ k → k ≤ cnts.length →
      (List.range' 1 c).foldl
          (fun l j => l.set (pyIdx l.length ((k : Int) - (j : Int))) val) cnts
        = cnts.take (k - c) ++ List.replicate c val ++ cnts.drop k := by
  intro c
  induction c with
  | zero =>
    intro k val cnts _ _
    simp [List.take_append_drop]
  | succ c ih =>
    intro k val cnts hck hk
    rw [List.range'_concat, List.foldl_append,
      ih k val cnts (by omega) hk]
    have hlen : (cnts.take (k - c) ++ List.replicate c val ++ cnts.drop k).length
        = cnts.length := by
      simp only [List.length_append, List.length_take, List.length_replicate,
        List.length_drop]
      omega
    have harg : ((k : Nat) : Int) - ((1 + 1 * c : Nat) : Int) = ((k - c - 1 : Nat) : Int) := by
      push_cast
      omega
    simp only [List.foldl_cons, List.foldl_nil, hlen, harg,
      pyIdx_of_nonneg cnts.length ((k - c - 1 : Nat) : Int) (by positivity)
        (by exact_mod_cast (by omega : k - c - 1 < cnts.length))]
    rw [Int.toNat_natCast]
    have hkc : k - c - 1 < cnts.length := by omega
    have hsplit : cnts.take (k - c) = cnts.take (k - c - 1) ++ [cnts.getD (k - c - 1) 0] := by
      rw [List.getD_eq_getElem cnts 0 hkc]
      conv_lhs => rw [show k - c = (k - c - 1) + 1 by omega]
      rw [List.take_succ, List.getElem?_eq_getElem hkc]
      rfl
    rw [hsplit]
    simp only [List.append_assoc, List.singleton_append]
    rw [List.set_append, if_neg (by simp only [List.length_take]; omega)]
    have hz : k - c - 1 - (cnts.take (k - c - 1)).length = 0 := by
      simp only [List.length_take]; omega
    rw [hz]
    have hkc1 : k - (c + 1) = k - c - 1 := by omega
    rw [hkc1, List.replicate_succ]
    simp [List.set]

/-- The back-fill at a closing index `k` with counter `last ≤ k`: no wrap,
the closed segment `[k - last, k)` is overwritten with `last`. -/
theorem backfillLoop_eq (cnts : List Nat) (k last : Nat) (hlk : last ≤ k)
    (hk : k ≤ cnts.length) :
    backfillLoop cnts k last
      = cnts.take (k - last) ++ List.replicate last last ++ cnts.drop k := by
  unfold backfillLoop
  exact backfill_fold_eq last k last cnts hlk hk

/-! ### The first sweep agrees with the reference propagation -/

/-- Loop invariant for the first sweep: at index `k = s + c` the positions
`s..k-1` hold the ascending counts of the currently open run and the counter
equals `c`; the remaining iterations produce exactly `sweepSeg c` of the
unprocessed suffix, leaving the prefix before `s` alone. -/
theorem foldl_catStep1_eq (fuel : Nat) :
    ∀ (cnts : List Nat) (s c k : Nat),
      k = s + c → k + fuel = cnts.length →
      (∀ t, t < c → cnts.getD (s + t) 0 = t + 1) →
      ((List.range' k fuel).foldl catStep1 (cnts, c)).1
        = cnts.take s ++ sweepSeg c (cnts.drop k) := by
  induction fuel with
  | zero =>
    intro cnts s c k hk hlen hasc
    simp only [List.range', List.foldl_nil]
    rw [show k = cnts.length from by omega, List.drop_length]
    have hdrop : cnts.drop s = List.range' 1 c := by
      apply List.ext_getElem
      · simp only [List.length_drop, List.length_range']; omega
      · intro n h1 h2
        have hn : n < c := by simp only [List.length_drop] at h1; omega
        have hsn : s + n < cnts.length := by omega
        have := hasc n hn
        rw [List.getD_eq_getElem cnts 0 hsn] at this
        rw [List.getElem_drop, List.getElem_range']
        omega
    calc cnts = cnts.take s ++ cnts.drop s := (List.take_append_drop s cnts).symm
      _ = cnts.take s ++ sweepSeg c [] := by rw [hdrop]; rfl
  | succ fuel ih =>
    intro cnts s c k hk hlen hasc
    have hkl : k < cnts.length := by omega
    rw [List.range'_succ, List.foldl_cons]
    by_cases hv : 0 < cnts.getD k 0
    · rw [show catStep1 (cnts, c) k = (cnts.set k (c + 1), c + 1) from by
        unfold catStep1; rw [if_pos hv]]
      rw [ih (cnts.set k (c + 1)) s (c + 1) (k + 1) (by omega)
        (by simp only [List.length_set]; omega)
        (by
          intro t ht
          rcases Nat.lt_or_ge t c with htc | htc
          · rw [getD_set_ne _ _ _ _ _ (by omega)]
            exact hasc t htc
          · have htc' : t = c := by omega
            subst htc'
            rw [show s + t = k from by omega]
            exact getD_set_eq cnts k (t + 1) 0 hkl)]
      rw [take_set_of_le cnts k s (c + 1) (by omega),
        drop_set_of_lt cnts k (k + 1) (c + 1) (by omega)]
      rw [List.drop_eq_getElem_cons hkl]
      have hvk : cnts[k] ≠ 0 := by
        rw [← List.getD_eq_getElem cnts 0 hkl]; omega
      simp only [sweepSeg, if_neg hvk]
    · have hv0 : cnts.getD k 0 = 0 := by omega
      rw [show catStep1 (cnts, c) k = (backfillLoop cnts k c, 0) from by
        unfold catStep1; rw [if_neg hv]]
      rw [backfillLoop_eq cnts k c (by omega) (by omega),
        show k - c = s from by omega]
      have hbflen : (cnts.take s ++ List.replicate c c ++ cnts.drop k).length
          = cnts.length := by
        simp only [List.length_append, List.length_take, List.length_replicate,
          List.length_drop]
        omega
      rw [ih (cnts.take s ++ List.replicate c c ++ cnts.drop k) (k + 1) 0 (k + 1)
        (by omega) (by omega) (by omega)]
      have hkdrop : cnts.drop k = 0 :: cnts.drop (k + 1) := by
        rw [List.drop_eq_getElem_cons hkl]
        rw [← List.getD_eq_getElem cnts 0 hkl, hv0]
      have h1 : (cnts.take s).length = s := by simp only [List.length_take]; omega
      have h2 : (List.replicate c c).length = c := List.length_replicate ..
      have h12 : (cnts.take s ++ List.replicate c c).length = s + c := by
        rw [List.length_append, h1, h2]
      have htake : (cnts.take s ++ List.replicate c c ++ cnts.drop k).take (k + 1)
          = cnts.take s ++ List.replicate c c ++ [0] := by
        rw [List.take_append_eq_append_take,
          List.take_of_length_le (by rw [h12]; omega), h12,
          show k + 1 - (s + c) = 1 from by omega, hkdrop]
        rfl
      have hdrop : (cnts.take s ++ List.replicate c c ++ cnts.drop k).drop (k + 1)
          = cnts.drop (k + 1) := by
        rw [List.drop_append_eq_append_drop,
          List.drop_of_length_le (by rw [h12]; omega), h12,
          show k + 1 - (s + c) = 1 from by omega, hkdrop]
        rfl
      rw [htake, hdrop, hkdrop]
      simp only [sweepSeg, if_pos rfl]
      simp [List.append_assoc]

/-- Provided the first day's weight is at most 1, the first sweep of
`_categorize` computes exactly the reference run-length propagation. -/
theorem propagate_eq_sweepRef (w : List Nat) (hn : 1 ≤ w.length) (h0 : w.getD 0 0 ≤ 1) :
    propagate w = sweepRef w := by
  cases w with
  | nil => simp at hn
  | cons w0 tail =>
    unfold propagate sweepRef
    have hb : w0 ≤ 1 := by simpa using h0
    have hlen : (w0 :: tail).length = tail.length + 1 := by simp
    interval_cases w0
    · rw [show ((0 : Nat) :: tail).getD 0 0 = 0 from rfl,
        foldl_catStep1_eq (((0 : Nat) :: tail).length - 1) ((0 : Nat) :: tail) 1 0 1
        (by omega) (by simp; omega) (by omega)]
      simp [sweepSeg]
    · rw [show ((1 : Nat) :: tail).getD 0 0 = 1 from rfl,
        foldl_catStep1_eq (((1 : Nat) :: tail).length - 1) ((1 : Nat) :: tail) 0 1 1
        (by omega) (by simp; omega)
        (by intro t ht; interval_cases t; rfl)]
      simp [sweepSeg]

/-! ### Structure of the reference propagation -/

theorem sweepSeg_nil (c : Nat) : sweepSeg c [] = List.range' 1 c := rfl

theorem sweepSeg_cons_zero (c : Nat) (rest : List Nat) :
    sweepSeg c (0 :: rest) = List.replicate c c ++ 0 :: sweepSeg 0 rest := by
  simp [sweepSeg]

theorem sweepSeg_cons_pos (c v : Nat) (rest : List Nat) (hv : v ≠ 0) :
    sweepSeg c (v :: rest) = sweepSeg (c + 1) rest := by
  simp [sweepSeg, hv]

theorem length_sweepSeg (l : List Nat) : ∀ c, (sweepSeg c l).length = c + l.length := by
  induction l with
  | nil => intro c; rw [sweepSeg_nil]; simp
  | cons v rest ih =>
    intro c
    by_cases hv : v = 0
    · subst hv
      rw [sweepSeg_cons_zero]
      simp [ih]
      try omega
    · rw [sweepSeg_cons_pos _ _ _ hv, ih]
      simp
      try omega

/-- Processing splits at a zero: everything after a zero is processed from a
fresh state. -/
theorem sweepSeg_append_zero (xs : List Nat) : ∀ (c : Nat) (r : List Nat),
    sweepSeg c (xs ++ 0 :: r) = sweepSeg c (xs ++ [0]) ++ sweepSeg 0 r := by
  induction xs with
  | nil =>
    intro c r
    rw [List.nil_append, List.nil_append, sweepSeg_cons_zero, sweepSeg_cons_zero, sweepSeg_nil]
    simp
  | cons x xs ih =>
    intro c r
    by_cases hx : x = 0
    · subst hx
      rw [List.cons_append, List.cons_append, sweepSeg_cons_zero, sweepSeg_cons_zero, ih 0 r]
      simp
    · rw [List.cons_append, List.cons_append, sweepSeg_cons_pos _ _ _ hx,
        sweepSeg_cons_pos _ _ _ hx]
      exact ih (c + 1) r

/-- A nonzero stretch closed by a zero comes out as its total length at
every one of its positions. -/
theorem sweepSeg_nonzero_closed (v : List Nat) (hv : ∀ x ∈ v, x ≠ 0) :
    ∀ (c : Nat) (r : List Nat),
    sweepSeg c (v ++ 0 :: r)
      = List.replicate (c + v.length) (c + v.length) ++ 0 :: sweepSeg 0 r := by
  induction v with
  | nil => intro c r; rw [List.nil_append, sweepSeg_cons_zero]; simp
  | cons x v ih =>
    intro c r
    have hx : x ≠ 0 := hv x (by simp)
    rw [List.cons_append, sweepSeg_cons_pos _ _ _ hx,
      ih (fun y hy => hv y (by simp [hy])) (c + 1) r]
    simp only [List.length_cons]
    congr 2 <;> omega

/-- A nonzero stretch still open at the end keeps ascending counts. -/
theorem sweepSeg_nonzero_open (v : List Nat) (hv : ∀ x ∈ v, x ≠ 0) :
    ∀ c, sweepSeg c v = List.range' 1 (c + v.length) := by
  induction v with
  | nil => intro c; rw [sweepSeg_nil]; simp
  | cons x v ih =>
    intro c
    have hx : x ≠ 0 := hv x (by simp)
    rw [sweepSeg_cons_pos _ _ _ hx, ih (fun y hy => hv y (by simp [hy])) (c + 1)]
    simp only [List.length_cons]
    congr 1
    omega

/-- A list that ends with a `0` splits off its last element. -/
theorem eq_dropLast_append_zero {u : List Nat} (hu : u.getLast? = some 0) :
    u = u.dropLast ++ [0] := by
  have hne : u ≠ [] := by rintro rfl; simp at hu
  have h1 := List.dropLast_append_getLast hne
  rw [List.getLast?_eq_getLast u hne] at hu
  have h2 : u.getLast hne = 0 := Option.some_inj.mp hu
  conv_lhs => rw [← h1]
  rw [h2]

/-- The positions of a maximal nonzero stretch closed by a later zero all
hold the stretch's total length after the reference propagation. -/
theorem sweepRef_closed_run (u v r : List Nat) (hu : u = [] ∨ u.getLast? = some 0)
    (hv : ∀ x ∈ v, x ≠ 0) :
    ((sweepRef (u ++ v ++ 0 :: r)).drop u.length).take v.length
      = List.replicate v.length v.length := by
  have hbase : ∀ r' : List Nat,
      (sweepSeg 0 (v ++ 0 :: r')).take v.length = List.replicate v.length v.length := by
    intro r'
    rw [sweepSeg_nonzero_closed v hv 0 r']
    rw [List.take_append_of_le_length (by simp)]
    rw [List.take_of_length_le (by simp)]
    simp
  rcases hu with hu | hu
  · subst hu
    simpa [sweepRef] using hbase r
  · rw [eq_dropLast_append_zero hu]
    unfold sweepRef
    have hsplit : u.dropLast ++ [0] ++ (v ++ 0 :: r) = u.dropLast ++ 0 :: (v ++ 0 :: r) := by
      simp
    rw [List.append_assoc, hsplit, sweepSeg_append_zero]
    have hlen : (sweepSeg 0 (u.dropLast ++ [0])).length = (u.dropLast ++ [0]).length := by
      rw [length_sweepSeg]; omega
    rw [← hlen, List.drop_left]
    exact hbase r

/-- The positions of a maximal nonzero stretch still open at the end of the
sequence hold ascending position counts after the reference propagation. -/
theorem sweepRef_open_run (u v : List Nat) (hu : u = [] ∨ u.getLast? = some 0)
    (hv : ∀ x ∈ v, x ≠ 0) :
    (sweepRef (u ++ v)).drop u.length = List.range' 1 v.length := by
  rcases hu with hu | hu
  · subst hu
    simpa [sweepRef] using sweepSeg_nonzero_open v hv 0
  · rw [eq_dropLast_append_zero hu]
    unfold sweepRef
    have hsplit : u.dropLast ++ [0] ++ v = u.dropLast ++ 0 :: v := by simp
    rw [hsplit, sweepSeg_append_zero]
    have hlen : (sweepSeg 0 (u.dropLast ++ [0])).length = (u.dropLast ++ [0]).length := by
      rw [length_sweepSeg]; omega
    rw [show (u.dropLast ++ [0] : List Nat).length = (sweepSeg 0 (u.dropLast ++ [0])).length
        from hlen.symm, List.drop_left]
    simpa using sweepSeg_nonzero_open v hv 0

/-! ### The second sweep agrees with its reference form -/

theorem take_succ_set_eq {α : Type} (l : List α) (i : Nat) (x : α) (h : i < l.length) :
    (l.set i x).take (i + 1) = l.take i ++ [x] := by
  rw [List.take_succ, take_set_of_le _ _ _ _ (Nat.le_refl i),
    List.getElem?_set, if_pos rfl, if_pos h]
  rfl

theorem take_succ_getD {α : Type} (l : List α) (i : Nat) (d : α) (h : i < l.length) :
    l.take (i + 1) = l.take i ++ [l.getD i d] := by
  rw [List.take_succ, List.getElem?_eq_getElem h, List.getD_eq_getElem l d h]
  rfl

theorem sweep2Go_nil (m prev : Nat) (pend : String) : sweep2Go m prev pend [] = [pend] := rfl

theorem sweep2Go_zero_big (m prev : Nat) (pend d : String) (rest : List (Nat × String))
    (hm : m ≤ prev) :
    sweep2Go m prev pend ((0, d) :: rest) = "last_day" :: sweep2Go m 0 d rest := by
  simp [sweep2Go, hm]

theorem sweep2Go_zero_small (m prev : Nat) (pend d : String) (rest : List (Nat × String))
    (hm : ¬ m ≤ prev) :
    sweep2Go m prev pend ((0, d) :: rest) = pend :: sweep2Go m 0 d rest := by
  simp [sweep2Go, hm]

theorem sweep2Go_pos_big_first (m prev v : Nat) (pend d : String)
    (rest : List (Nat × String)) (hv : v ≠ 0) (hmv : m ≤ v) (hp : prev = 0) :
    sweep2Go m prev pend ((v, d) :: rest)
      = "first_day" :: sweep2Go m v "middle_days" rest := by
  simp [sweep2Go, hv, hmv, hp]

theorem sweep2Go_pos_big_mid (m prev v : Nat) (pend d : String)
    (rest : List (Nat × String)) (hv : v ≠ 0) (hmv : m ≤ v) (hp : prev ≠ 0) :
    sweep2Go m prev pend ((v, d) :: rest)
      = pend :: sweep2Go m v "middle_days" rest := by
  simp [sweep2Go, hv, hmv, hp]

theorem sweep2Go_pos_small (m prev v : Nat) (pend d : String)
    (rest : List (Nat × String)) (hv : v ≠ 0) (hmv : ¬ m ≤ v) :
    sweep2Go m prev pend ((v, d) :: rest) = pend :: sweep2Go m v d rest := by
  simp [sweep2Go, hv, hmv]

/-- Loop invariant for the second sweep: positions before `k - 1` are final,
position `k - 1` is still revisable (`pend`), positions from `k` on are
untouched; the remaining iterations behave like `sweep2Go`. -/
theorem foldl_catStep2_eq (m : Nat) (cnts : List Nat) (fuel : Nat) :
    ∀ (days : List String) (last k : Nat),
      1 ≤ k → k + fuel = cnts.length → days.length = cnts.length →
      ((List.range' k fuel).foldl (catStep2 m cnts) (days, last)).1
        = days.take (k - 1)
          ++ sweep2Go m last (days.getD (k - 1) "") ((cnts.drop k).zip (days.drop k)) := by
  induction fuel with
  | zero =>
    intro days last k hk hlen hdl
    simp only [List.range', List.foldl_nil]
    rw [List.drop_of_length_le (by omega),
      show ([] : List Nat).zip (days.drop k) = ([] : List (Nat × String)) from rfl,
      sweep2Go_nil]
    have htake : days.take k = days := List.take_of_length_le (by omega)
    conv_lhs => rw [← htake]
    rw [show k = (k - 1) + 1 from by omega,
      take_succ_getD days (k - 1) "" (by omega)]
    rfl
  | succ fuel ih =>
    intro days last k hk hlen hdl
    have hkl : k < cnts.length := by omega
    have hkd : k < days.length := by omega
    have hk1 : k - 1 < days.length := by omega
    have hk11 : (k - 1) + 1 = k := by omega
    rw [List.range'_succ, List.foldl_cons]
    rw [List.drop_eq_getElem_cons hkl, List.drop_eq_getElem_cons hkd, List.zip_cons_cons]
    have hck : cnts[k] = cnts.getD k 0 := (List.getD_eq_getElem cnts 0 hkl).symm
    have hdk : days[k] = days.getD k "" := (List.getD_eq_getElem days "" hkd).symm
    by_cases hv : cnts.getD k 0 = 0
    · by_cases hlast : m ≤ last
      · rw [show catStep2 m cnts (days, last) k = (days.set (k - 1) "last_day", 0) from by
          unfold catStep2; dsimp only; rw [hv, if_pos rfl, if_pos hlast]]
        rw [ih (days.set (k - 1) "last_day") 0 (k + 1) (by omega) (by omega)
          (by rw [List.length_set]; omega)]
        simp only [Nat.add_sub_cancel]
        rw [hck, hv, sweep2Go_zero_big m last _ _ _ hlast]
        rw [show (days.set (k - 1) "last_day").take k = days.take (k - 1) ++ ["last_day"] from by
          rw [← hk11]; exact take_succ_set_eq days (k - 1) "last_day" hk1]
        rw [getD_set_ne days (k - 1) k "last_day" "" (by omega),
          drop_set_of_lt days (k - 1) (k + 1) "last_day" (by omega), hdk]
        simp [List.append_assoc]
      · rw [show catStep2 m cnts (days, last) k = (days, 0) from by
          unfold catStep2; dsimp only; rw [hv, if_pos rfl, if_neg hlast]]
        rw [ih days 0 (k + 1) (by omega) (by omega) hdl]
        simp only [Nat.add_sub_cancel]
        rw [hck, hv, sweep2Go_zero_small m last _ _ _ hlast]
        rw [show days.take k = days.take (k - 1) ++ [days.getD (k - 1) ""] from by
          rw [← hk11]; exact take_succ_getD days (k - 1) "" hk1]
        rw [hdk]
        simp [List.append_assoc]
    · have hv' : cnts.getD k 0 ≠ 0 := hv
      by_cases hmv : m ≤ cnts.getD k 0
      · by_cases hlast : last = 0
        · rw [show catStep2 m cnts (days, last) k
              = ((days.set (k - 1) "first_day").set k "middle_days", cnts.getD k 0) from by
            unfold catStep2; dsimp only; rw [if_neg hv, if_pos hmv, if_pos hlast]]
          rw [ih ((days.set (k - 1) "first_day").set k "middle_days") (cnts.getD k 0) (k + 1)
            (by omega) (by omega) (by rw [List.length_set, List.length_set]; omega)]
          simp only [Nat.add_sub_cancel]
          rw [hck, sweep2Go_pos_big_first m last _ _ _ _ hv' hmv hlast]
          rw [show ((days.set (k - 1) "first_day").set k "middle_days").take k
              = days.take (k - 1) ++ ["first_day"] from by
            rw [take_set_of_le _ _ _ _ (Nat.le_refl k), ← hk11]
            exact take_succ_set_eq days (k - 1) "first_day" hk1]
          rw [getD_set_eq _ k "middle_days" "" (by rw [List.length_set]; omega)]
          rw [drop_set_of_lt _ k (k + 1) "middle_days" (by omega),
            drop_set_of_lt days (k - 1) (k + 1) "first_day" (by omega)]
          simp [List.append_assoc]
        · rw [show catStep2 m cnts (days, last) k
              = (days.set k "middle_days", cnts.getD k 0) from by
            unfold catStep2; dsimp only; rw [if_neg hv, if_pos hmv, if_neg hlast]]
          rw [ih (days.set k "middle_days") (cnts.getD k 0) (k + 1) (by omega) (by omega)
            (by rw [List.length_set]; omega)]
          simp only [Nat.add_sub_cancel]
          rw [hck, sweep2Go_pos_big_mid m last _ _ _ _ hv' hmv hlast]
          rw [take_set_of_le days k k "middle_days" (Nat.le_refl k)]
          rw [show days.take k = days.take (k - 1) ++ [days.getD (k - 1) ""] from by
            rw [← hk11]; exact take_succ_getD days (k - 1) "" hk1]
          rw [getD_set_eq days k "middle_days" "" hkd,
            drop_set_of_lt days k (k + 1) "middle_days" (by omega)]
          simp [List.append_assoc]
      · rw [show catStep2 m cnts (days, last) k = (days, cnts.getD k 0) from by
          unfold catStep2; dsimp only; rw [if_neg hv, if_neg hmv]]
        rw [ih days (cnts.getD k 0) (k + 1) (by omega) (by omega) hdl]
        simp only [Nat.add_sub_cancel]
        rw [hck, sweep2Go_pos_small m last _ _ _ _ hv' hmv]
        rw [show days.take k = days.take (k - 1) ++ [days.getD (k - 1) ""] from by
          rw [← hk11]; exact take_succ_getD days (k - 1) "" hk1]
        rw [hdk]
        simp [List.append_assoc]

/-- The second sweep on a nonempty column, in reference form. -/
theorem labelSweep_eq_sweep2Go (m : Nat) (cnts : List Nat) (days : List String)
    (hn : 1 ≤ cnts.length) (hdl : days.length = cnts.length) :
    labelSweep m cnts days
      = sweep2Go m (cnts.getD 0 0) (days.getD 0 "") ((cnts.drop 1).zip (days.drop 1)) := by
  unfold labelSweep
  rw [foldl_catStep2_eq m cnts (cnts.length - 1) days (cnts.getD 0 0) 1 (Nat.le_refl 1)
    (by omega) hdl]
  simp

/-! ### `if`/`elif` versus the spec's two independent `if`s -/

theorem specStep2_eq_catStep2 (m : Nat) (cnts : List Nat) (hm : 1 ≤ m)
    (s : List String × Nat) (k : Nat) : specStep2 m cnts s k = catStep2 m cnts s k := by
  unfold specStep2 catStep2
  dsimp only
  by_cases hv : cnts.getD k 0 = 0
  · rw [hv]
    rw [if_neg (show ¬ m ≤ (0 : Nat) by omega), if_pos rfl]
    simp
  · rw [if_neg hv]
    have h1 : ¬ (cnts.getD k 0 = 0 ∧ m ≤ s.2) := by
      rintro ⟨h0, _⟩
      exact hv h0
    rw [if_neg h1]

theorem specLabelSweep_eq_labelSweep (m : Nat) (cnts : List Nat) (days : List String)
    (hm : 1 ≤ m) : specLabelSweep m cnts days = labelSweep m cnts days := by
  unfold specLabelSweep labelSweep
  congr 1
  generalize List.range' 1 (cnts.length - 1) = ks
  generalize (days, cnts.getD 0 0) = s
  induction ks generalizing s with
  | nil => rfl
  | cons k ks ih =>
    rw [List.foldl_cons, List.foldl_cons, specStep2_eq_catStep2 m cnts hm, ih]

/-! ### The first sweep never erases a nonzero weight -/

theorem pyIdx_lt (n : Nat) (i : Int) (hn : 0 < n) : pyIdx n i < n := by
  unfold pyIdx
  have h1 : 0 ≤ i % (n : Int) := Int.emod_nonneg i (by
    exact_mod_cast Nat.pos_iff_ne_zero.mp hn)
  have h2 : i % (n : Int) < (n : Int) := Int.emod_lt_of_pos i (by exact_mod_cast hn)
  omega

theorem getD_backfillLoop_ne_zero (cnts : List Nat) (k last i : Nat)
    (h : cnts.getD i 0 ≠ 0) : (backfillLoop cnts k last).getD i 0 ≠ 0 := by
  unfold backfillLoop
  rcases Nat.eq_zero_or_pos last with hl | hl
  · subst hl
    simpa using h
  · generalize List.range' 1 last = js
    induction js generalizing cnts with
    | nil => simpa using h
    | cons j js ih =>
      rw [List.foldl_cons]
      apply ih
      by_cases hpi : pyIdx cnts.length ((k : Int) - (j : Int)) = i
      · have hne : cnts ≠ [] := by
          intro hc; subst hc; simp at h
        have hp : pyIdx cnts.length ((k : Int) - (j : Int)) < cnts.length :=
          pyIdx_lt _ _ (List.length_pos.mpr hne)
        rw [← hpi]
        rw [getD_set_eq _ _ _ _ hp]
        omega
      · rw [getD_set_ne _ _ _ _ _ hpi]
        exact h

theorem getD_propagate_ne_zero (w : List Nat) (i : Nat) (h : w.getD i 0 ≠ 0) :
    (propagate w).getD i 0 ≠ 0 := by
  unfold propagate
  have H : ∀ (ks : List Nat) (s : List Nat × Nat), s.1.getD i 0 ≠ 0 →
      ((ks.foldl catStep1 s).1).getD i 0 ≠ 0 := by
    intro ks
    induction ks with
    | nil => intro s hs; exact hs
    | cons k ks ih =>
      intro s hs
      rw [List.foldl_cons]
      apply ih
      unfold catStep1
      split
      · dsimp only
        rw [List.getD_eq_getElem?_getD, List.getElem?_set]
        by_cases hki : k = i
        · rw [if_pos hki]
          by_cases hkl : k < s.1.length
          · rw [if_pos hkl]; simp
          · exfalso
            apply hs
            rw [List.getD_eq_getElem?_getD, List.getElem?_eq_none (by omega)]
            rfl
        · rw [if_neg hki, ← List.getD_eq_getElem?_getD]
          exact hs
      · exact getD_backfillLoop_ne_zero _ _ _ _ hs
  exact H _ _ h

/-! ### Which positions can receive each boundary label -/

/-- `sweep2Go` emits `last_day` at a position only when the input weight at
the next position is zero (and in particular never at the final position). -/
theorem sweep2Go_last_day (m : Nat) :
    ∀ (zs : List (Nat × String)) (prev : Nat) (pend : String) (i : Nat),
      pend ≠ "last_day" → (∀ p ∈ zs, p.2 ≠ "last_day") →
      (sweep2Go m prev pend zs).getD i "" = "last_day" →
      (zs.getD i (0, "")).1 = 0 ∧ i < zs.length := by
  intro zs
  induction zs with
  | nil =>
    intro prev pend i hp _ hlab
    rw [sweep2Go_nil] at hlab
    exfalso
    cases i with
    | zero => exact hp hlab
    | succ i => simp [List.getD] at hlab
  | cons z zs ih =>
    obtain ⟨v, d⟩ := z
    intro prev pend i hp hzs hlab
    have hd : d ≠ "last_day" := hzs (v, d) (by simp)
    have hzs' : ∀ p ∈ zs, p.2 ≠ "last_day" := fun p hp' => hzs p (by simp [hp'])
    have hmid : ("middle_days" : String) ≠ "last_day" := by decide
    by_cases hv : v = 0
    · subst hv
      by_cases hm' : m ≤ prev
      · rw [sweep2Go_zero_big m prev pend d zs hm'] at hlab
        cases i with
        | zero => exact ⟨rfl, by simp⟩
        | succ i =>
          rw [List.getD_cons_succ] at hlab
          obtain ⟨h1, h2⟩ := ih 0 d i hd hzs' hlab
          exact ⟨by simpa using h1, by simp; omega⟩
      · rw [sweep2Go_zero_small m prev pend d zs hm'] at hlab
        cases i with
        | zero => exact absurd hlab hp
        | succ i =>
          rw [List.getD_cons_succ] at hlab
          obtain ⟨h1, h2⟩ := ih 0 d i hd hzs' hlab
          exact ⟨by simpa using h1, by simp; omega⟩
    · by_cases hmv : m ≤ v
      · by_cases hprev : prev = 0
        · rw [sweep2Go_pos_big_first m prev v pend d zs hv hmv hprev] at hlab
          cases i with
          | zero =>
            rw [List.getD_cons_zero] at hlab
            exact absurd hlab (by decide)
          | succ i =>
            rw [List.getD_cons_succ] at hlab
            obtain ⟨h1, h2⟩ := ih v "middle_days" i hmid hzs' hlab
            exact ⟨by simpa using h1, by simp; omega⟩
        · rw [sweep2Go_pos_big_mid m prev v pend d zs hv hmv hprev] at hlab
          cases i with
          | zero => exact absurd hlab hp
          | succ i =>
            rw [List.getD_cons_succ] at hlab
            obtain ⟨h1, h2⟩ := ih v "middle_days" i hmid hzs' hlab
            exact ⟨by simpa using h1, by simp; omega⟩
      · rw [sweep2Go_pos_small m prev v pend d zs hv hmv] at hlab
        cases i with
        | zero => exact absurd hlab hp
        | succ i =>
          rw [List.getD_cons_succ] at hlab
          obtain ⟨h1, h2⟩ := ih v d i hd hzs' hlab
          exact ⟨by simpa using h1, by simp; omega⟩

/-- `sweep2Go` emits `first_day` at a position only when the input weight at
that same position is zero. -/
theorem sweep2Go_first_day (m : Nat) :
    ∀ (zs : List (Nat × String)) (prev : Nat) (pend : String) (i : Nat),
      pend ≠ "first_day" → (∀ p ∈ zs, p.2 ≠ "first_day") →
      (sweep2Go m prev pend zs).getD i "" = "first_day" →
      (i = 0 ∧ prev = 0) ∨ (1 ≤ i ∧ (zs.getD (i - 1) (0, "")).1 = 0) := by
  intro zs
  induction zs with
  | nil =>
    intro prev pend i hp _ hlab
    rw [sweep2Go_nil] at hlab
    exfalso
    cases i with
    | zero => exact hp hlab
    | succ i => simp [List.getD] at hlab
  | cons z zs ih =>
    obtain ⟨v, d⟩ := z
    intro prev pend i hp hzs hlab
    have hd : d ≠ "first_day" := hzs (v, d) (by simp)
    have hzs' : ∀ p ∈ zs, p.2 ≠ "first_day" := fun p hp' => hzs p (by simp [hp'])
    have hmid : ("middle_days" : String) ≠ "first_day" := by decide
    have lift : ∀ i' : Nat, (i' = 0 ∧ v = 0) ∨ (1 ≤ i' ∧ (zs.getD (i' - 1) (0, "")).1 = 0) →
        (i' + 1 = 0 ∧ prev = 0)
          ∨ (1 ≤ i' + 1 ∧ (((v, d) :: zs).getD (i' + 1 - 1) (0, "")).1 = 0) := by
      intro i' hh
      rcases hh with ⟨hi0, hv0⟩ | ⟨hi1, hz0⟩
      · subst hi0
        exact Or.inr ⟨by omega, by simpa using hv0⟩
      · refine Or.inr ⟨by omega, ?_⟩
        have : i' + 1 - 1 = (i' - 1) + 1 := by omega
        rw [this, List.getD_cons_succ]
        exact hz0
    by_cases hv : v = 0
    · subst hv
      by_cases hm' : m ≤ prev
      · rw [sweep2Go_zero_big m prev pend d zs hm'] at hlab
        cases i with
        | zero =>
          rw [List.getD_cons_zero] at hlab
          exact absurd hlab (by decide)
        | succ i =>
          rw [List.getD_cons_succ] at hlab
          exact lift i (ih 0 d i hd hzs' hlab)
      · rw [sweep2Go_zero_small m prev pend d zs hm'] at hlab
        cases i with
        | zero => exact absurd hlab hp
        | succ i =>
          rw [List.getD_cons_succ] at hlab
          exact lift i (ih 0 d i hd hzs' hlab)
    · by_cases hmv : m ≤ v
      · by_cases hprev : prev = 0
        · rw [sweep2Go_pos_big_first m prev v pend d zs hv hmv hprev] at hlab
          cases i with
          | zero => exact Or.inl ⟨rfl, hprev⟩
          | succ i =>
            rw [List.getD_cons_succ] at hlab
            exact lift i (ih v "middle_days" i hmid hzs' hlab)
        · rw [sweep2Go_pos_big_mid m prev v pend d zs hv hmv hprev] at hlab
          cases i with
          | zero => exact absurd hlab hp
          | succ i =>
            rw [List.getD_cons_succ] at hlab
            exact lift i (ih v "middle_days" i hmid hzs' hlab)
      · rw [sweep2Go_pos_small m prev v pend d zs hv hmv] at hlab
        cases i with
        | zero => exact absurd hlab hp
        | succ i =>
          rw [List.getD_cons_succ] at hlab
          exact lift i (ih v d i hd hzs' hlab)

/-- The first output position of `sweep2Go` is never `middle_days` (that
mark is only ever written at loop indices `k ≥ 1`). -/
theorem sweep2Go_head_ne_middle (m : Nat) (zs : List (Nat × String)) (prev : Nat)
    (pend : String) (hp : pend ≠ "middle_days") :
    (sweep2Go m prev pend zs).getD 0 "" ≠ "middle_days" := by
  cases zs with
  | nil => rw [sweep2Go_nil]; exact hp
  | cons z zs =>
    obtain ⟨v, d⟩ := z
    by_cases hv : v = 0
    · subst hv
      by_cases hm' : m ≤ prev
      · rw [sweep2Go_zero_big m prev pend d zs hm', List.getD_cons_zero]; decide
      · rw [sweep2Go_zero_small m prev pend d zs hm']; exact hp
    · by_cases hmv : m ≤ v
      · by_cases hprev : prev = 0
        · rw [sweep2Go_pos_big_first m prev v pend d zs hv hmv hprev, List.getD_cons_zero]
          decide
        · rw [sweep2Go_pos_big_mid m prev v pend d zs hv hmv hprev]; exact hp
      · rw [sweep2Go_pos_small m prev v pend d zs hv hmv]; exact hp

/-- The weekday defaults are never one of the long-holiday labels. -/
theorem dayTypeDefault_cases (w : Nat) :
    dayTypeDefault w = "Friday" ∨ dayTypeDefault w = "Saturday" ∨
    dayTypeDefault w = "Sunday" ∨ dayTypeDefault w = "others" := by
  unfold dayTypeDefault
  by_cases h4 : w = 4
  · simp [h4]
  · by_cases h5 : w = 5
    · simp [h4, h5]
    · by_cases h6 : w = 6
      · simp [h4, h5, h6]
      · simp [h4, h5, h6]

theorem dayTypeDefault_not_special (w : Nat) : isSpecial (dayTypeDefault w) = false := by
  rcases dayTypeDefault_cases w with h | h | h | h <;> rw [h] <;> rfl

/-! ### Counting the boundary labels (round-trip property) -/

theorem runSumGo_nil (m c : Nat) : runSumGo m c [] = if 1 ≤ c ∧ m ≤ c then c else 0 := rfl

theorem runSumGo_cons_zero (m c : Nat) (rest : List Nat) :
    runSumGo m c (0 :: rest) = (if 1 ≤ c ∧ m ≤ c then c else 0) + runSumGo m 0 rest := by
  simp [runSumGo]

theorem runSumGo_cons_pos (m c v : Nat) (rest : List Nat) (hv : v ≠ 0) :
    runSumGo m c (v :: rest) = runSumGo m (c + 1) rest := by
  simp [runSumGo, hv]

theorem runCntGo_nil (m c : Nat) : runCntGo m c [] = if 1 ≤ c ∧ m ≤ c then 1 else 0 := rfl

theorem runCntGo_cons_zero (m c : Nat) (rest : List Nat) :
    runCntGo m c (0 :: rest) = (if 1 ≤ c ∧ m ≤ c then 1 else 0) + runCntGo m 0 rest := by
  simp [runCntGo]

theorem runCntGo_cons_pos (m c v : Nat) (rest : List Nat) (hv : v ≠ 0) :
    runCntGo m c (v :: rest) = runCntGo m (c + 1) rest := by
  simp [runCntGo, hv]

theorem runSumGo_nonzero_prefix (run : List Nat) (hr : ∀ x ∈ run, x ≠ 0) :
    ∀ (m c : Nat) (r : List Nat), runSumGo m c (run ++ r) = runSumGo m (c + run.length) r := by
  induction run with
  | nil => intro m c r; simp
  | cons x run ih =>
    intro m c r
    have hx : x ≠ 0 := hr x (by simp)
    rw [List.cons_append, runSumGo_cons_pos m c x _ hx,
      ih (fun y hy => hr y (by simp [hy])) m (c + 1) r]
    congr 1
    simp only [List.length_cons]
    omega

theorem runCntGo_nonzero_prefix (run : List Nat) (hr : ∀ x ∈ run, x ≠ 0) :
    ∀ (m c : Nat) (r : List Nat), runCntGo m c (run ++ r) = runCntGo m (c + run.length) r := by
  induction run with
  | nil => intro m c r; simp
  | cons x run ih =>
    intro m c r
    have hx : x ≠ 0 := hr x (by simp)
    rw [List.cons_append, runCntGo_cons_pos m c x _ hx,
      ih (fun y hy => hr y (by simp [hy])) m (c + 1) r]
    congr 1
    simp only [List.length_cons]
    omega

/-- A list that ends in a zero and starts nonzero splits as a maximal
nonzero run, its closing zero, and a remainder that again ends in a zero. -/
theorem run_split (v : Nat) : ∀ (rest : List Nat),
    (v :: rest).getLast? = some 0 → v ≠ 0 →
    ∃ run t, v :: rest = run ++ 0 :: t ∧ run ≠ [] ∧ (∀ x ∈ run, x ≠ 0)
      ∧ (t = [] ∨ t.getLast? = some 0) := by
  intro rest
  induction rest generalizing v with
  | nil =>
    intro hlast hv
    rw [List.getLast?_singleton] at hlast
    exact absurd (Option.some_inj.mp hlast) hv
  | cons b rest' ih =>
    intro hlast hv
    by_cases hb : b = 0
    · subst hb
      refine ⟨[v], rest', by simp, by simp, by simpa using hv, ?_⟩
      cases rest' with
      | nil => exact Or.inl rfl
      | cons c r2 =>
        right
        rw [List.getLast?_cons_cons, List.getLast?_cons_cons] at hlast
        exact hlast
    · have hlast' : (b :: rest').getLast? = some 0 := by
        rw [List.getLast?_cons_cons] at hlast
        exact hlast
      obtain ⟨run, t, h1, h2, h3, h4⟩ := ih b hlast' hb
      refine ⟨v :: run, t, ?_, by simp, ?_, h4⟩
      · rw [show v :: b :: rest' = v :: (b :: rest') from rfl, h1]
        rfl
      · intro x hx
        rcases List.mem_cons.mp hx with rfl | hx'
        · exact hv
        · exact h3 x hx'

/-- Labels across a qualifying closed run (`m ≤ L`) preceded by a zero
weight: one `first_day` one position early, `middle_days` inside, and
`last_day` on the run's final day. -/
theorem sweep2Go_qual_mid (m L : Nat) (hmL : m ≤ L) (hL0 : L ≠ 0) :
    ∀ (j : Nat) (dtl : List String) (d0 : String) (tail : List (Nat × String)),
      dtl.length = j →
      sweep2Go m L "middle_days" ((List.replicate j L).zip dtl ++ (0, d0) :: tail)
        = List.replicate j "middle_days" ++ "last_day" :: sweep2Go m 0 d0 tail := by
  intro j
  induction j with
  | zero =>
    intro dtl d0 tail hlen
    have hdtl : dtl = [] := List.eq_nil_of_length_eq_zero hlen
    subst hdtl
    simp only [List.replicate, List.zip_nil_right, List.nil_append]
    rw [sweep2Go_zero_big m L "middle_days" d0 tail hmL]
  | succ j ih =>
    intro dtl d0 tail hlen
    obtain ⟨dh, dt, rfl⟩ := List.exists_of_length_succ dtl hlen
    rw [List.replicate_succ, List.zip_cons_cons, List.cons_append,
      sweep2Go_pos_big_mid m L L "middle_days" dh _ hL0 hmL hL0,
      ih dt d0 tail (by simpa using hlen), List.replicate_succ]
    rfl

theorem sweep2Go_qual_run (m L : Nat) (hmL : m ≤ L) (hL1 : 1 ≤ L) :
    ∀ (dr : List String) (dp d0 : String) (tail : List (Nat × String)),
      dr.length = L →
      sweep2Go m 0 dp ((List.replicate L L).zip dr ++ (0, d0) :: tail)
        = "first_day" :: (List.replicate (L - 1) "middle_days"
            ++ "last_day" :: sweep2Go m 0 d0 tail) := by
  intro dr dp d0 tail hlen
  obtain ⟨L', rfl⟩ : ∃ L', L = L' + 1 := ⟨L - 1, by omega⟩
  obtain ⟨dh, dt, rfl⟩ := List.exists_of_length_succ dr hlen
  rw [List.replicate_succ, List.zip_cons_cons, List.cons_append,
    sweep2Go_pos_big_first m 0 (L' + 1) dp dh _ (by omega) hmL rfl,
    sweep2Go_qual_mid m (L' + 1) hmL (by omega) L' dt d0 tail (by simpa using hlen)]
  simp

/-- Labels across a non-qualifying closed run (`L < m`): nothing special is
written, the pending labels just shift through. -/
theorem sweep2Go_small_run (m Lv : Nat) (hmv : ¬ m ≤ Lv) (hLv : Lv ≠ 0) :
    ∀ (j : Nat) (dr : List String) (prev : Nat) (pend d0 : String)
      (tail : List (Nat × String)),
      dr.length = j → ¬ m ≤ prev →
      sweep2Go m prev pend ((List.replicate j Lv).zip dr ++ (0, d0) :: tail)
        = pend :: (dr ++ sweep2Go m 0 d0 tail) := by
  intro j
  induction j with
  | zero =>
    intro dr prev pend d0 tail hlen hprev
    have hdr : dr = [] := List.eq_nil_of_length_eq_zero hlen
    subst hdr
    simp only [List.replicate, List.zip_nil_right, List.nil_append]
    rw [sweep2Go_zero_small m prev pend d0 tail hprev]
  | succ j ih =>
    intro dr prev pend d0 tail hlen hprev
    obtain ⟨dh, dt, rfl⟩ := List.exists_of_length_succ dr hlen
    rw [List.replicate_succ, List.zip_cons_cons, List.cons_append,
      sweep2Go_pos_small m prev Lv pend dh _ hLv hmv,
      ih dt Lv dh d0 tail (by simpa using hlen) hmv]
    rfl

/-- Master counting lemma: on a weight sequence that ends in a zero, the
number of `first_day`/`middle_days`/`last_day` labels the second sweep
produces on the propagated weights equals, for each maximal nonzero run of
length `L ≥ m`, `L + 1` (the run plus the `first_day` written one position
early), i.e. `runSumGo + runCntGo`. -/
theorem count_labels_eq (m : Nat) (hm : 1 ≤ m) :
    ∀ (fuel : Nat) (rest : List Nat) (d' : List String) (dp : String),
      rest.length ≤ fuel →
      (rest = [] ∨ rest.getLast? = some 0) →
      isSpecial dp = false → (∀ s ∈ d', isSpecial s = false) →
      d'.length = rest.length →
      countSpecial (sweep2Go m 0 dp ((sweepRef rest).zip d'))
        = runSumGo m 0 rest + runCntGo m 0 rest := by
  intro fuel
  induction fuel with
  | zero =>
    intro rest d' dp hf hlast hdp hd' hlen
    have h0 : rest = [] := List.eq_nil_of_length_eq_zero (by omega)
    subst h0
    have h1 : d' = [] := List.eq_nil_of_length_eq_zero (by simpa using hlen)
    subst h1
    rw [show sweepRef [] = ([] : List Nat) from rfl]
    rw [show ([] : List Nat).zip ([] : List String) = ([] : List (Nat × String)) from rfl,
      sweep2Go_nil]
    unfold countSpecial
    rw [List.countP_cons]
    simp [hdp, runSumGo, runCntGo]
  | succ fuel ih =>
    intro rest d' dp hf hlast hdp hd' hlen
    cases rest with
    | nil =>
      have h1 : d' = [] := List.eq_nil_of_length_eq_zero (by simpa using hlen)
      subst h1
      rw [show sweepRef [] = ([] : List Nat) from rfl]
      rw [show ([] : List Nat).zip ([] : List String) = ([] : List (Nat × String)) from rfl,
        sweep2Go_nil]
      unfold countSpecial
      rw [List.countP_cons]
      simp [hdp, runSumGo, runCntGo]
    | cons v rest' =>
      have hlast' : (v :: rest').getLast? = some 0 := by
        rcases hlast with h | h
        · exact absurd h (by simp)
        · exact h
      obtain ⟨dd, d2, rfl⟩ := List.exists_of_length_succ d' (by simpa using hlen)
      by_cases hv : v = 0
      · subst hv
        rw [show sweepRef (0 :: rest') = 0 :: sweepRef rest' from by
          unfold sweepRef; rw [sweepSeg_cons_zero]; simp]
        rw [List.zip_cons_cons, sweep2Go_zero_small m 0 dp dd _ (by omega)]
        unfold countSpecial
        rw [List.countP_cons]
        have hrec := ih rest' d2 dd (by simpa using hf)
          (by
            cases rest' with
            | nil => exact Or.inl rfl
            | cons c r2 =>
              right
              rw [List.getLast?_cons_cons] at hlast'
              exact hlast')
          (hd' dd (by simp)) (fun s hs => hd' s (by simp [hs]))
          (by simpa using hlen)
        unfold countSpecial at hrec
        rw [hrec, hdp, runSumGo_cons_zero, runCntGo_cons_zero]
        simp
      · obtain ⟨run, t, hsplit, hrun_ne, hrun_nz, ht⟩ := run_split v rest' hlast' hv
        set L := run.length with hL
        have hL1 : 1 ≤ L := by
          rw [hL]
          exact List.length_pos.mpr hrun_ne
        have hlen_split : rest'.length + 1 = L + 1 + t.length := by
          have h := congrArg List.length hsplit
          simp only [List.length_cons, List.length_append] at h
          omega
        have hsweep : sweepRef (v :: rest')
            = List.replicate L L ++ 0 :: sweepRef t := by
          unfold sweepRef
          rw [hsplit, sweepSeg_nonzero_closed run hrun_nz 0 t]
          simp [hL]
        have hdlen : (dd :: d2).length = rest'.length + 1 := by simpa using hlen
        have hdr_len : (List.take L (dd :: d2)).length = L := by
          rw [List.length_take]
          simp only [hdlen]
          omega
        have hdrop_len : (List.drop L (dd :: d2)).length = t.length + 1 := by
          rw [List.length_drop]
          omega
        obtain ⟨d0, d3, hd23⟩ : ∃ d0 d3, List.drop L (dd :: d2) = d0 :: d3 := by
          cases hdrop : List.drop L (dd :: d2) with
          | nil => rw [hdrop] at hdrop_len; simp at hdrop_len
          | cons d0 d3 => exact ⟨d0, d3, rfl⟩
        have hd3_len : d3.length = t.length := by
          have := hdrop_len
          rw [hd23] at this
          simpa using this
        have hzip : (sweepRef (v :: rest')).zip (dd :: d2)
            = (List.replicate L L).zip (List.take L (dd :: d2))
              ++ (0, d0) :: (sweepRef t).zip d3 := by
          rw [hsweep]
          conv_lhs => rw [← List.take_append_drop L (dd :: d2)]
          rw [List.zip_append (by simp [hdr_len]), hd23, List.zip_cons_cons]
        have hmem_take : ∀ s ∈ List.take L (dd :: d2), isSpecial s = false :=
          fun s hs => hd' s (List.take_subset L (dd :: d2) hs)
        have hmem_d0 : isSpecial d0 = false := by
          apply hd'
          have : d0 ∈ List.drop L (dd :: d2) := by rw [hd23]; simp
          exact List.drop_subset L (dd :: d2) this
        have hmem_d3 : ∀ s ∈ d3, isSpecial s = false := by
          intro s hs
          apply hd'
          have : s ∈ List.drop L (dd :: d2) := by rw [hd23]; simp [hs]
          exact List.drop_subset L (dd :: d2) this
        have hrec := ih t d3 d0 (by omega) ht hmem_d0 hmem_d3 hd3_len
        have hrs : runSumGo m 0 (v :: rest')
            = (if 1 ≤ L ∧ m ≤ L then L else 0) + runSumGo m 0 t := by
          rw [hsplit, runSumGo_nonzero_prefix run hrun_nz m 0 (0 :: t),
            runSumGo_cons_zero]
          simp [hL]
        have hrc : runCntGo m 0 (v :: rest')
            = (if 1 ≤ L ∧ m ≤ L then 1 else 0) + runCntGo m 0 t := by
          rw [hsplit, runCntGo_nonzero_prefix run hrun_nz m 0 (0 :: t),
            runCntGo_cons_zero]
          simp [hL]
        rw [hzip]
        by_cases hqual : m ≤ L
        · rw [sweep2Go_qual_run m L hqual hL1 (List.take L (dd :: d2)) dp d0
            ((sweepRef t).zip d3) hdr_len]
          have hcount : countSpecial ("first_day" :: (List.replicate (L - 1) "middle_days"
              ++ "last_day" :: sweep2Go m 0 d0 ((sweepRef t).zip d3)))
              = (L - 1) + 2 + countSpecial (sweep2Go m 0 d0 ((sweepRef t).zip d3)) := by
            unfold countSpecial
            rw [List.countP_cons, List.countP_append, List.countP_cons, List.countP_replicate,
              show isSpecial "first_day" = true from rfl,
              show isSpecial "middle_days" = true from rfl,
              show isSpecial "last_day" = true from rfl]
            simp
            omega
          rw [hcount, hrec, hrs, hrc,
            if_pos (show 1 ≤ L ∧ m ≤ L from ⟨hL1, hqual⟩),
            if_pos (show 1 ≤ L ∧ m ≤ L from ⟨hL1, hqual⟩)]
          omega
        · rw [sweep2Go_small_run m L hqual (by omega) L (List.take L (dd :: d2)) 0 dp d0
            ((sweepRef t).zip d3) hdr_len (by omega)]
          have hdr0 : List.countP isSpecial (List.take L (dd :: d2)) = 0 := by
            rw [List.countP_eq_zero]
            intro a ha
            simp [hmem_take a ha]
          have hcount : countSpecial (dp :: (List.take L (dd :: d2)
              ++ sweep2Go m 0 d0 ((sweepRef t).zip d3)))
              = countSpecial (sweep2Go m 0 d0 ((sweepRef t).zip d3)) := by
            unfold countSpecial
            rw [List.countP_cons, List.countP_append, hdr0, hdp]
            simp
          rw [hcount, hrec, hrs, hrc,
            if_neg (show ¬ (1 ≤ L ∧ m ≤ L) from by omega),
            if_neg (show ¬ (1 ≤ L ∧ m ≤ L) from by omega)]
          omega

/-! ### Transfer helpers for `categorize` -/

theorem categorize_ok {flags wdays : List Nat} {m : Nat} {labels : List String}
    (h : categorize flags wdays m = .ok labels) :
    flags ≠ []
    ∧ labels = labelSweep m (propagate (baseWeights flags wdays)) (wdays.map dayTypeDefault) := by
  unfold categorize at h
  split at h
  · exact absurd h (by simp)
  · next hne =>
    refine ⟨?_, ?_⟩
    · intro hc
      subst hc
      exact hne rfl
    · injection h with h
      exact h.symm

theorem length_baseWeights (flags wdays : List Nat) (hlen : wdays.length = flags.length) :
    (baseWeights flags wdays).length = flags.length := by
  unfold baseWeights
  rw [List.length_zipWith]
  omega

theorem getD_drop_one {α : Type} (l : List α) (i : Nat) (d : α) :
    (l.drop 1).getD i d = l.getD (i + 1) d := by
  cases l with
  | nil => simp [List.getD]
  | cons x xs => simp [List.getD_cons_succ]

theorem zip_getD_fst {α β : Type} (l₁ : List α) (l₂ : List β) (i : Nat) (a : α) (b : β)
    (h : i < (l₁.zip l₂).length) : ((l₁.zip l₂).getD i (a, b)).1 = l₁.getD i a := by
  have h1 : i < l₁.length := by
    rw [List.length_zip] at h
    omega
  rw [List.getD_eq_getElem _ _ h, List.getD_eq_getElem _ _ h1, List.getElem_zip]

/-- Every label the pipeline outputs, in reference form. -/
theorem categorize_ok_sweep2Go {flags wdays : List Nat} {m : Nat} {labels : List String}
    (h : categorize flags wdays m = .ok labels) (hlen : wdays.length = flags.length) :
    labels = sweep2Go m ((propagate (baseWeights flags wdays)).getD 0 0)
      ((wdays.map dayTypeDefault).getD 0 "")
      (((propagate (baseWeights flags wdays)).drop 1).zip
        ((wdays.map dayTypeDefault).drop 1)) := by
  obtain ⟨hne, hlabels⟩ := categorize_ok h
  rw [hlabels]
  apply labelSweep_eq_sweep2Go
  · rw [length_propagate, length_baseWeights flags wdays hlen]
    exact Nat.one_le_iff_ne_zero.mpr (fun hc => hne (List.eq_nil_of_length_eq_zero hc))
  · rw [List.length_map, length_propagate, length_baseWeights flags wdays hlen, hlen]

/-! ### Calendar-assembly lemmas -/

theorem length_dateRange (dfrom dto : Int) (h : dfrom ≤ dto) :
    (dateRange dfrom dto).length = (dto - dfrom).toNat + 1 := by
  unfold dateRange
  rw [List.length_map, List.length_range]
  omega

theorem dateRange_chain (dfrom dto : Int) :
    (dateRange dfrom dto).Chain' (fun a b => b = a + 1) := by
  unfold dateRange
  rw [List.chain'_map, List.chain'_iff_get]
  intro i h
  rw [List.get_eq_getElem, List.get_eq_getElem, List.getElem_range, List.getElem_range]
  push_cast
  ring

theorem head_dateRange (dfrom dto : Int) (h : dfrom ≤ dto) :
    (dateRange dfrom dto).head? = some dfrom := by
  unfold dateRange
  rw [show (dto + 1 - dfrom).toNat = ((dto + 1 - dfrom).toNat - 1) + 1 from by omega,
    List.range_succ_eq_map]
  simp

theorem denseFlag_false (records : List HolidayRecord) (d : Int) (c : String) :
    denseFlag records false d c = if holidayMarked records d c then 1 else 0 := by
  unfold denseFlag pivotCell holidayMarked
  rw [if_neg (by simp)]
  by_cases hrec : records.any (fun r => r.date == d && r.country == c)
  · rw [if_pos hrec]
  · rw [if_neg hrec]
    have hrec' : records.any (fun r => r.date == d && r.country == c) = false :=
      Bool.eq_false_iff.mpr hrec
    have hoff : records.any (fun r => r.date == d && r.country == c && r.dayOff) = false := by
      rw [List.any_eq_false]
      intro r hr
      have h1 := List.any_eq_false.mp hrec' r hr
      intro hc
      rw [Bool.and_eq_true] at hc
      exact h1 hc.1
    rw [hoff]
    simp

theorem denseFlag_weekend (records : List HolidayRecord) (d : Int) (c : String)
    (h : weekday d = 5 ∨ weekday d = 6) : denseFlag records true d c = 1 := by
  unfold denseFlag
  rw [if_pos]
  rcases h with h | h <;> simp [h]

/-- Destructor for a successful `loadCalendar`: the shape of the table. -/
theorem loadCalendar_ok {dfrom dto : Int} {codes : List String}
    {records : List HolidayRecord} {lh : Nat} {wk : Bool} {cal : CalTable}
    (h : loadCalendar dfrom dto codes records lh wk = .ok cal) :
    cal.dates = dateRange dfrom dto
    ∧ cal.flagCols = (if codes.isEmpty then DEFAULT_COUNTRIES else codes).map
        (fun c => (c, (dateRange dfrom dto).map (fun d => denseFlag records wk d c))) := by
  unfold loadCalendar at h
  dsimp only at h
  split at h
  · exact absurd h (by simp)
  · split at h
    · exact absurd h (by simp)
    · rw [Except.ok.injEq] at h
      subst h
      exact ⟨rfl, rfl⟩

/-- On an inverted range the pipeline always fails, but never with the
spec's `InvalidRange` kind: either a requested country is missing from the
pivot columns, or — the range being empty — the labeler's `counts[0]`. -/
theorem loadCalendar_invertedRange (dfrom dto : Int) (codes : List String)
    (records : List HolidayRecord) (lh : Nat) (wk : Bool) (h : dto < dfrom) :
    ∃ e, loadCalendar dfrom dto codes records lh wk = .error e
      ∧ e ≠ CalError.invalidRange := by
  unfold loadCalendar
  have hdr : dateRange dfrom dto = [] := by
    unfold dateRange
    rw [show (dto + 1 - dfrom).toNat = 0 from by omega]
    rfl
  cases hfind : (if codes.isEmpty then DEFAULT_COUNTRIES else codes).find?
      (fun c => !(records.any (fun r => r.country == c))) with
  | some c =>
    refine ⟨.missingColumn c, ?_, by simp⟩
    dsimp only
    rw [hfind]
  | none =>
    have hcne : (if codes.isEmpty then DEFAULT_COUNTRIES else codes) ≠ [] := by
      split
      · simp [DEFAULT_COUNTRIES]
      · next hemp =>
        intro hc
        rw [hc] at hemp
        exact hemp rfl
    obtain ⟨c0, cs, hcs⟩ := List.exists_cons_of_ne_nil hcne
    refine ⟨.emptyIndex, ?_, by simp⟩
    dsimp only
    rw [hfind, hdr, hcs]
    rfl

theorem not_special_ne (s : String) (h : isSpecial s = false) :
    s ≠ "first_day" ∧ s ≠ "middle_days" ∧ s ≠ "last_day" := by
  refine ⟨?_, ?_, ?_⟩ <;> intro hc <;> subst hc <;> exact absurd h (by decide)

theorem map_dayTypeDefault_getD_not_special (wdays : List Nat) (i : Nat) :
    isSpecial ((wdays.map dayTypeDefault).getD i "") = false := by
  by_cases h : i < (wdays.map dayTypeDefault).length
  · rw [List.getD_eq_getElem _ _ h, List.getElem_map]
    exact dayTypeDefault_not_special _
  · rw [List.getD_eq_getElem?_getD, List.getElem?_eq_none (by omega)]
    rfl

theorem mem_zip_self_map {α β : Type} (f : α → β) :
    ∀ (l : List α) (q : α × β), q ∈ l.zip (l.map f) → q.2 = f q.1 := by
  intro l
  induction l with
  | nil => intro q hq; simp at hq
  | cons x xs ih =>
    intro q hq
    rw [List.map_cons, List.zip_cons_cons] at hq
    rcases List.mem_cons.mp hq with rfl | hq'
    · rfl
    · exact ih q hq'

/-! ## The claims -/

/-- C1 (counterexample): the first sweep does not realize the reference
run-length semantics when the first day's weight is 2 (a holiday on a
weekend day, e.g. a Sunday holiday followed by an ordinary Monday, weight
sequence `[2, 0]`).  The maximal nonzero stretch at position 0 has total
length 1 but ends up holding 2, and the back-fill wraps around and
overwrites the zero-weight final day as well: the output is `[2, 2]`. -/
theorem C1_counterexample :
    ([2, 0] : List Nat) = [] ++ [2] ++ 0 :: []
    ∧ (∀ x ∈ ([2] : List Nat), x ≠ 0)
    ∧ propagate [2, 0] = [2, 2]
    ∧ ((propagate [2, 0]).drop 0).take 1 ≠ List.replicate 1 1 := by
  refine ⟨by decide, by decide, by decide, by decide⟩

/-- C1 (amended): provided the first day's weight is at most 1, the first
sweep of `_categorize` equals the spec's reference run-length propagation:
every maximal consecutive stretch of nonzero weights closed by a later
zero-weight day ends up holding the stretch's total run length at every one
of its positions, while a stretch still open at the end of the sequence
keeps ascending position counts. -/
theorem C1_first_sweep (w : List Nat) (hn : 1 ≤ w.length) (h0 : w.getD 0 0 ≤ 1) :
    propagate w = sweepRef w
    ∧ (∀ u v r, w = u ++ v ++ 0 :: r → (∀ x ∈ v, x ≠ 0) →
        (u = [] ∨ u.getLast? = some 0) →
        ((propagate w).drop u.length).take v.length = List.replicate v.length v.length)
    ∧ (∀ u v, w = u ++ v → (∀ x ∈ v, x ≠ 0) → (u = [] ∨ u.getLast? = some 0) →
        (propagate w).drop u.length = List.range' 1 v.length) := by
  have heq := propagate_eq_sweepRef w hn h0
  refine ⟨heq, ?_, ?_⟩
  · intro u v r hw hv hu
    rw [heq, hw]
    exact sweepRef_closed_run u v r hu hv
  · intro u v hw hv hu
    rw [heq, hw]
    exact sweepRef_open_run u v hu hv

/-- C1 (witness): a concrete application of the amended theorem. -/
theorem C1_witness :
    1 ≤ ([0, 1, 1, 0, 1] : List Nat).length
    ∧ ([0, 1, 1, 0, 1] : List Nat).getD 0 0 ≤ 1
    ∧ propagate [0, 1, 1, 0, 1] = sweepRef [0, 1, 1, 0, 1] :=
  ⟨by decide, by decide, (C1_first_sweep [0, 1, 1, 0, 1] (by decide) (by decide)).1⟩

/-- C2: for every post-propagation weight sequence and `min_days ≥ 1`, the
second sweep of `_categorize` (an `if v == 0 / elif v >= min_days` loop)
produces exactly the labels of the spec's rule with its two independent
conditions `v == 0 ∧ last ≥ min_days` and `v ≥ min_days`; the
`first_day`/`last_day` marks are written one index behind the triggering
day, overriding that position's weekday default. -/
theorem C2_second_sweep (m : Nat) (cnts : List Nat) (days : List String) (hm : 1 ≤ m) :
    labelSweep m cnts days = specLabelSweep m cnts days :=
  (specLabelSweep_eq_labelSweep m cnts days hm).symm

/-- C2 (witness): a concrete application. -/
theorem C2_witness :
    (1 : Nat) ≤ 3
    ∧ labelSweep 3 [0, 3, 3, 3, 0] ["others", "others", "others", "others", "others"]
      = specLabelSweep 3 [0, 3, 3, 3, 0] ["others", "others", "others", "others", "others"] :=
  ⟨by decide, C2_second_sweep 3 [0, 3, 3, 3, 0]
    ["others", "others", "others", "others", "others"] (by decide)⟩

/-- C3 (counterexample): Scenario A through the pipeline.  Days 4..10 are
Monday..Sunday, the holiday flags are `[0,0,1,1,1,0,0]` and `min_days = 3`;
the weekend continuation extends the run weight (weights
`[0,0,1,1,1,1,1]`, still open at the end), so the actual labels are
`[others, others, others, others, middle_days, middle_days, middle_days]` —
not the claimed `[other, other, first_day, middle_days, last_day, saturday,
sunday]`: position 2 is not `first_day` and position 4 is not `last_day`. -/
theorem C3_counterexample :
    loadCalendar 4 10 ["jp"] [⟨6, "jp", true⟩, ⟨7, "jp", true⟩, ⟨8, "jp", true⟩] 3 false
      = .ok ⟨[4, 5, 6, 7, 8, 9, 10], [("jp", [0, 0, 1, 1, 1, 0, 0])],
          [("jp", ["others", "others", "others", "others",
                   "middle_days", "middle_days", "middle_days"])]⟩
    ∧ ("others" : String) ≠ "first_day" ∧ ("middle_days" : String) ≠ "last_day" := by
  refine ⟨by decide, by decide, by decide⟩

/-- C3 (amended): with `min_days = 3` and flags `[0,0,1,1,1,0,0]` over
Monday..Sunday, the labeler produces
`[others, others, others, others, middle_days, middle_days, middle_days]`:
the Saturday/Sunday weekend extends the nonzero-weight run, so it is still
open at the end of the range, no back-fill or `last_day`/`first_day` mark
fires, and days 4..6 carry ascending weights `3, 4, 5 ≥ min_days`. -/
theorem C3_scenario_a :
    categorize [0, 0, 1, 1, 1, 0, 0] [0, 1, 2, 3, 4, 5, 6] 3
      = .ok ["others", "others", "others", "others",
             "middle_days", "middle_days", "middle_days"] := by decide

/-- C9: the back-fill's out-of-bounds write is reachable.  On the weight
sequence `[2, 0]` (first day of the range a holiday on a weekend, run
closed by the zero at index 1) the guarded-index variant of the first sweep
fails with an out-of-range index, while the implementation wraps the index
`-1` around and silently overwrites the last element of the array — a
zero-weight day outside the run becomes 2. -/
theorem C9_oob_reachable :
    propagateChk [2, 0] = none
    ∧ propagate [2, 0] = [2, 2]
    ∧ ([2, 0] : List Nat).getD 1 0 = 0
    ∧ (propagate [2, 0]).getD 1 0 = 2 := by
  refine ⟨by decide, by decide, by decide, by decide⟩

/-- C4: for every input and `min_days ≥ 1`, a maximal nonzero-weight run
that includes the final day of the range never has any of its days labeled
`last_day`, and the final day itself is never labeled `last_day`: the
back-fill and the `last_day` mark are only triggered by a zero-weight day
strictly after the run. -/
theorem C4_no_trailing_last_day (flags wdays : List Nat) (m : Nat) (labels : List String)
    (hm : 1 ≤ m) (hlen : wdays.length = flags.length)
    (hok : categorize flags wdays m = .ok labels) :
    labels.getD (flags.length - 1) "" ≠ "last_day"
    ∧ ∀ s, (∀ i, s ≤ i → i < flags.length → (baseWeights flags wdays).getD i 0 ≠ 0) →
        ∀ i, s ≤ i → i < flags.length → labels.getD i "" ≠ "last_day" := by
  obtain ⟨hne, -⟩ := categorize_ok hok
  have hflen : 1 ≤ flags.length := List.length_pos.mpr hne
  have hlab := categorize_ok_sweep2Go hok hlen
  have hwlen : (baseWeights flags wdays).length = flags.length :=
    length_baseWeights flags wdays hlen
  have hzslen : (((propagate (baseWeights flags wdays)).drop 1).zip
      ((wdays.map dayTypeDefault).drop 1)).length = flags.length - 1 := by
    rw [List.length_zip, List.length_drop, List.length_drop, length_propagate, hwlen,
      List.length_map, hlen]
    omega
  have hpend : ((wdays.map dayTypeDefault).getD 0 "") ≠ "last_day" :=
    (not_special_ne _ (map_dayTypeDefault_getD_not_special wdays 0)).2.2
  have hmem : ∀ p ∈ ((propagate (baseWeights flags wdays)).drop 1).zip
      ((wdays.map dayTypeDefault).drop 1), p.2 ≠ "last_day" := by
    intro p hp
    obtain ⟨a, b⟩ := p
    have h2 : b ∈ (wdays.map dayTypeDefault).drop 1 := (List.of_mem_zip hp).2
    have h3 : b ∈ wdays.map dayTypeDefault := List.drop_subset 1 _ h2
    obtain ⟨w, hw, hww⟩ := List.mem_map.mp h3
    rw [← hww]
    exact (not_special_ne _ (dayTypeDefault_not_special w)).2.2
  constructor
  · intro hlab_eq
    rw [hlab] at hlab_eq
    obtain ⟨-, hilt⟩ := sweep2Go_last_day m _ _ _ _ hpend hmem hlab_eq
    rw [hzslen] at hilt
    omega
  · intro s hs i hsi hin hlab_eq
    rw [hlab] at hlab_eq
    obtain ⟨hz, hilt⟩ := sweep2Go_last_day m _ _ _ _ hpend hmem hlab_eq
    rw [zip_getD_fst _ _ _ _ _ hilt, getD_drop_one] at hz
    rw [hzslen] at hilt
    have hnz : (baseWeights flags wdays).getD (i + 1) 0 ≠ 0 :=
      hs (i + 1) (by omega) (by omega)
    exact getD_propagate_ne_zero _ _ hnz hz

/-- C4 (witness): a range whose nonzero run reaches the final day; no
`last_day` on the final day. -/
theorem C4_witness :
    (1 : Nat) ≤ 1
    ∧ categorize [1, 1, 1] [0, 1, 2] 1 = .ok ["others", "middle_days", "middle_days"]
    ∧ (["others", "middle_days", "middle_days"] : List String).getD
        (([1, 1, 1] : List Nat).length - 1) "" ≠ "last_day" :=
  ⟨by decide, by decide, (C4_no_trailing_last_day [1, 1, 1] [0, 1, 2] 1
      ["others", "middle_days", "middle_days"] (by decide) (by decide) (by decide)).1⟩

/-- C10 (counterexample): a qualifying long holiday starting at day 0 does
not in general "begin directly with middle_days".  With flags `[1,1,0]` on
Wednesday..Friday and `min_days = 1`, the run occupying indices 0..1
qualifies, yet the final labels are `[others, last_day, Friday]` — no day
is labeled `middle_days` at all (the run's only interior mark was
overwritten by `last_day`). -/
theorem C10_counterexample :
    categorize [1, 1, 0] [2, 3, 4] 1 = .ok ["others", "last_day", "Friday"]
    ∧ ("middle_days" : String) ∉ (["others", "last_day", "Friday"] : List String) := by
  refine ⟨by decide, by decide⟩

/-- C10 (amended): a maximal nonzero-weight run that begins at index 0
never has any day labeled `first_day` (the mark requires the previous
day's post-propagation weight to be 0, impossible for a run starting at the
first index), and index 0 itself is never labeled `middle_days` (that mark
is only written at loop indices ≥ 1).  Nothing stronger holds about the
labels of such a run: in particular it need not begin with `middle_days`,
and index 0 need not keep its weekday default (a `last_day` mark written at
`k-1` can land on index 0 when the run ends at index 1). -/
theorem C10_run_at_start (flags wdays : List Nat) (m : Nat) (labels : List String) (e : Nat)
    (hm : 1 ≤ m) (hn : 2 ≤ flags.length) (hlen : wdays.length = flags.length)
    (hok : categorize flags wdays m = .ok labels)
    (hrun : ∀ i, i ≤ e → i < flags.length → (baseWeights flags wdays).getD i 0 ≠ 0) :
    (∀ i, i ≤ e → i < flags.length → labels.getD i "" ≠ "first_day")
    ∧ labels.getD 0 "" ≠ "middle_days" := by
  have hlab := categorize_ok_sweep2Go hok hlen
  have hwlen : (baseWeights flags wdays).length = flags.length :=
    length_baseWeights flags wdays hlen
  have hzslen : (((propagate (baseWeights flags wdays)).drop 1).zip
      ((wdays.map dayTypeDefault).drop 1)).length = flags.length - 1 := by
    rw [List.length_zip, List.length_drop, List.length_drop, length_propagate, hwlen,
      List.length_map, hlen]
    omega
  have hpendF : ((wdays.map dayTypeDefault).getD 0 "") ≠ "first_day" :=
    (not_special_ne _ (map_dayTypeDefault_getD_not_special wdays 0)).1
  have hpendM : ((wdays.map dayTypeDefault).getD 0 "") ≠ "middle_days" :=
    (not_special_ne _ (map_dayTypeDefault_getD_not_special wdays 0)).2.1
  have hmem : ∀ p ∈ ((propagate (baseWeights flags wdays)).drop 1).zip
      ((wdays.map dayTypeDefault).drop 1), p.2 ≠ "first_day" := by
    intro p hp
    obtain ⟨a, b⟩ := p
    have h2 : b ∈ (wdays.map dayTypeDefault).drop 1 := (List.of_mem_zip hp).2
    have h3 : b ∈ wdays.map dayTypeDefault := List.drop_subset 1 _ h2
    obtain ⟨w, hw, hww⟩ := List.mem_map.mp h3
    rw [← hww]
    exact (not_special_ne _ (dayTypeDefault_not_special w)).1
  constructor
  · intro i hie hin hlab_eq
    rw [hlab] at hlab_eq
    rcases sweep2Go_first_day m _ _ _ i hpendF hmem hlab_eq with ⟨hi0, hprev⟩ | ⟨hi1, hz⟩
    · subst hi0
      have hnz : (baseWeights flags wdays).getD 0 0 ≠ 0 := hrun 0 (by omega) (by omega)
      exact getD_propagate_ne_zero _ _ hnz hprev
    · rw [zip_getD_fst _ _ _ _ _ (by rw [hzslen]; omega), getD_drop_one] at hz
      rw [show i - 1 + 1 = i from by omega] at hz
      have hnz : (baseWeights flags wdays).getD i 0 ≠ 0 := hrun i hie hin
      exact getD_propagate_ne_zero _ _ hnz hz
  · rw [hlab]
    exact sweep2Go_head_ne_middle m _ _ _ hpendM

/-- C10 (witness): a qualifying run at the start of the range; no
`middle_days` at index 0. -/
theorem C10_witness :
    categorize [1, 1, 1, 0] [0, 1, 2, 3] 2
      = .ok ["others", "middle_days", "last_day", "others"]
    ∧ (["others", "middle_days", "last_day", "others"] : List String).getD 0 ""
        ≠ "middle_days" :=
  ⟨by decide, (C10_run_at_start [1, 1, 1, 0] [0, 1, 2, 3] 2
      ["others", "middle_days", "last_day", "others"] 2 (by decide) (by decide) (by decide)
      (by decide) (by intro i h1 h2; interval_cases i <;> decide)).2⟩

/-- C5: for every valid range, a successfully produced dense calendar has
exactly `(date_to - date_from) + 1` rows; its date index starts at
`date_from` and advances by exactly one day per row (hence strictly
ascending, no duplicates, no gaps); and (without the weekend overlay) each
requested country's flag column is 1 exactly where the sparse matrix marks
that (date, country) as a holiday, dates absent from the matrix defaulting
to 0. -/
theorem C5_dense_calendar (dfrom dto : Int) (codes : List String)
    (records : List HolidayRecord) (lh : Nat) (cal : CalTable)
    (hvalid : dfrom ≤ dto)
    (hok : loadCalendar dfrom dto codes records lh false = .ok cal) :
    cal.dates.length = (dto - dfrom).toNat + 1
    ∧ cal.dates.Chain' (fun a b => b = a + 1)
    ∧ cal.dates.head? = some dfrom
    ∧ ∀ p ∈ cal.flagCols,
        p.2 = cal.dates.map (fun d => if holidayMarked records d p.1 then 1 else 0) := by
  obtain ⟨hdates, hflags⟩ := loadCalendar_ok hok
  refine ⟨by rw [hdates]; exact length_dateRange dfrom dto hvalid,
    by rw [hdates]; exact dateRange_chain dfrom dto,
    by rw [hdates]; exact head_dateRange dfrom dto hvalid, ?_⟩
  intro p hp
  rw [hflags] at hp
  obtain ⟨c, hc, hpc⟩ := List.mem_map.mp hp
  subst hpc
  dsimp only
  rw [hdates]
  exact List.map_congr_left (fun d _ => denseFlag_false records d c)

/-- C5 (witness): a concrete two-day calendar. -/
theorem C5_witness :
    (0 : Int) ≤ 1
    ∧ loadCalendar 0 1 ["jp"] [⟨0, "jp", true⟩] 3 false
        = .ok ⟨[0, 1], [("jp", [1, 0])], [("jp", ["others", "Friday"])]⟩
    ∧ (CalTable.mk [0, 1] [("jp", [1, 0])] [("jp", ["others", "Friday"])]).dates.length
        = ((1 : Int) - 0).toNat + 1 :=
  ⟨by decide, by decide, (C5_dense_calendar 0 1 ["jp"] [⟨0, "jp", true⟩] 3
      ⟨[0, 1], [("jp", [1, 0])], [("jp", ["others", "Friday"])]⟩ (by decide) (by decide)).1⟩

/-- C6 (counterexample): with `weekends=True` and an *empty* holiday table,
`load_calendar` does not produce a calendar with the weekend days forced to
1 — it produces no calendar at all: the column selection
`dfp[['date'] + country_codes]` fails because no requested country appears
in the (empty) pivot.  Here a 14-day range ending in an error. -/
theorem C6_counterexample :
    loadCalendar 0 13 ["jp"] [] 3 true = .error (CalError.missingColumn "jp") := by decide

/-- C6 (amended): when `weekends=True` and `load_calendar` succeeds (which
requires every requested country to appear in the holiday data — an empty
holiday table fails instead), every Saturday and Sunday row carries flag 1
for every requested country; a day that is both a real holiday and a
weekend also yields 1, since the weekend overlay is applied after the
holiday overlay and never turns a 1 into a 0. -/
theorem C6_weekend_overlay (dfrom dto : Int) (codes : List String)
    (records : List HolidayRecord) (lh : Nat) (cal : CalTable)
    (hok : loadCalendar dfrom dto codes records lh true = .ok cal) :
    ∀ p ∈ cal.flagCols, ∀ q ∈ cal.dates.zip p.2,
      (weekday q.1 = 5 ∨ weekday q.1 = 6) → q.2 = 1 := by
  obtain ⟨hdates, hflags⟩ := loadCalendar_ok hok
  intro p hp q hq hw
  rw [hflags] at hp
  obtain ⟨c, hc, hpc⟩ := List.mem_map.mp hp
  subst hpc
  dsimp only at hq
  rw [hdates] at hq
  have hq2 := mem_zip_self_map (fun d => denseFlag records true d c) (dateRange dfrom dto) q hq
  rw [hq2]
  exact denseFlag_weekend records q.1 c hw

/-- C6 (witness): a Saturday/Sunday range with one real holiday; both days
carry flag 1. -/
theorem C6_witness :
    loadCalendar 2 3 ["jp"] [⟨2, "jp", true⟩] 3 true
      = .ok ⟨[2, 3], [("jp", [1, 1])], [("jp", ["Saturday", "middle_days"])]⟩
    ∧ ∀ p ∈ (CalTable.mk [2, 3] [("jp", [1, 1])]
        [("jp", ["Saturday", "middle_days"])]).flagCols,
        ∀ q ∈ (CalTable.mk [2, 3] [("jp", [1, 1])]
            [("jp", ["Saturday", "middle_days"])]).dates.zip p.2,
          (weekday q.1 = 5 ∨ weekday q.1 = 6) → q.2 = 1 :=
  ⟨by decide, C6_weekend_overlay 2 3 ["jp"] [⟨2, "jp", true⟩] 3
    ⟨[2, 3], [("jp", [1, 1])], [("jp", ["Saturday", "middle_days"])]⟩ (by decide)⟩

/-- C8 (counterexample): on an inverted range (`date_from > date_to`) with
holiday data covering the requested country, `load_calendar` fails — but
with the empty-index error of `counts[0]` in the labeler, not with an
`InvalidRange` kind: no such check exists in the code. -/
theorem C8_counterexample :
    loadCalendar 5 2 ["jp"] [⟨2, "jp", true⟩] 3 false = .error CalError.emptyIndex
    ∧ CalError.emptyIndex ≠ CalError.invalidRange := by
  refine ⟨by decide, by decide⟩

/-- C8 (amended): for every `date_from > date_to` and any country list,
holiday matrix and parameters, `load_calendar` never returns a calendar —
it always fails — but the failure kind is never the spec's `InvalidRange`:
it is either the missing-pivot-column `KeyError` or the labeler's empty
`counts[0]` `IndexError`. -/
theorem C8_inverted_range (dfrom dto : Int) (codes : List String)
    (records : List HolidayRecord) (lh : Nat) (wk : Bool) (h : dto < dfrom) :
    ∃ e, loadCalendar dfrom dto codes records lh wk = .error e
      ∧ e ≠ CalError.invalidRange :=
  loadCalendar_invertedRange dfrom dto codes records lh wk h

/-- C8 (witness): a concrete inverted range. -/
theorem C8_witness :
    (2 : Int) < 5
    ∧ ∃ e, loadCalendar 5 2 ["th"] [⟨2, "th", true⟩] 3 true = .error e
        ∧ e ≠ CalError.invalidRange :=
  ⟨by decide, C8_inverted_range 5 2 ["th"] [⟨2, "th", true⟩] 3 true (by decide)⟩

/-- C7 (counterexample): the round-trip equality fails as stated.  On
weights `[0,1,1,1,0,0]` with `min_days = 3` (no unclosed trailing run, so
the claim's exemption does not apply) the sum of the lengths of the
qualifying runs is 3, but 4 days are labeled — the `first_day` mark is
written one index before the run, adding one label per qualifying run. -/
theorem C7_counterexample :
    runLenSum 3 [0, 1, 1, 1, 0, 0] = 3
    ∧ countSpecial (labelSweep 3 (propagate [0, 1, 1, 1, 0, 0])
        ["others", "others", "others", "others", "others", "others"]) = 4
    ∧ (3 : Nat) ≠ 4 := by
  refine ⟨by decide, by decide, by decide⟩

/-- C7 (amended): for a weight sequence whose first and last days have
weight 0 (so no run touches either boundary — in particular there is no
unclosed trailing run and no wrap-around), the number of days labeled
`first_day`, `middle_days` or `last_day` equals the sum of the lengths of
all maximal nonzero-weight runs of length at least `min_days` plus the
number of such runs (each qualifying run contributes its length plus the
`first_day` written one index before it). -/
theorem C7_round_trip (flags wdays : List Nat) (m : Nat) (labels : List String)
    (hm : 1 ≤ m) (hlen : wdays.length = flags.length)
    (h0 : (baseWeights flags wdays).getD 0 0 = 0)
    (hlast : (baseWeights flags wdays).getLast? = some 0)
    (hok : categorize flags wdays m = .ok labels) :
    countSpecial labels
      = runLenSum m (baseWeights flags wdays) + qualRunCount m (baseWeights flags wdays) := by
  obtain ⟨hne, -⟩ := categorize_ok hok
  have hflen : 1 ≤ flags.length := List.length_pos.mpr hne
  have hwlen : (baseWeights flags wdays).length = flags.length :=
    length_baseWeights flags wdays hlen
  have hlab := categorize_ok_sweep2Go hok hlen
  obtain ⟨w0, rest, hw⟩ : ∃ w0 rest, baseWeights flags wdays = w0 :: rest := by
    cases hc : baseWeights flags wdays with
    | nil => rw [hc] at hwlen; simp at hwlen; omega
    | cons a l => exact ⟨a, l, rfl⟩
  have hw0 : w0 = 0 := by
    rw [hw] at h0
    simpa using h0
  subst hw0
  obtain ⟨wd0, wdrest, hwd⟩ : ∃ a l, wdays = a :: l := by
    cases hc : wdays with
    | nil => rw [hc] at hlen; simp at hlen; omega
    | cons a l => exact ⟨a, l, rfl⟩
  have hprop : propagate (baseWeights flags wdays) = sweepRef (baseWeights flags wdays) :=
    propagate_eq_sweepRef _ (by omega) (by rw [h0]; omega)
  rw [hlab, hprop, hw]
  rw [show sweepRef (0 :: rest) = 0 :: sweepRef rest from by
    unfold sweepRef
    rw [sweepSeg_cons_zero]
    simp]
  rw [hwd]
  simp only [List.map_cons, List.getD_cons_zero, List.drop_succ_cons, List.drop_zero]
  have hrest_last : rest = [] ∨ rest.getLast? = some 0 := by
    rw [hw] at hlast
    cases rest with
    | nil => exact Or.inl rfl
    | cons c r2 =>
      right
      rw [List.getLast?_cons_cons] at hlast
      exact hlast
  have hcount := count_labels_eq m hm rest.length rest (wdrest.map dayTypeDefault)
    (dayTypeDefault wd0) (Nat.le_refl _) hrest_last
    (dayTypeDefault_not_special wd0)
    (by
      intro s hs
      obtain ⟨w, hwmem, hww⟩ := List.mem_map.mp hs
      rw [← hww]
      exact dayTypeDefault_not_special w)
    (by
      have h1 : wdays.length = rest.length + 1 := by
        rw [hlen, ← hwlen, hw]
        simp
      rw [hwd] at h1
      simp at h1
      simp [h1])
  rw [hcount]
  unfold runLenSum qualRunCount
  rw [runSumGo_cons_zero, runCntGo_cons_zero,
    if_neg (show ¬ (1 ≤ 0 ∧ m ≤ 0) from by omega),
    if_neg (show ¬ (1 ≤ 0 ∧ m ≤ 0) from by omega)]
  omega

/-- C7 (witness): one qualifying run of length 3 away from both boundaries;
4 labeled days = 3 + 1. -/
theorem C7_witness :
    categorize [0, 1, 1, 1, 0] [0, 1, 2, 3, 4] 3
      = .ok ["first_day", "middle_days", "middle_days", "last_day", "Friday"]
    ∧ countSpecial ["first_day", "middle_days", "middle_days", "last_day", "Friday"]
        = runLenSum 3 (baseWeights [0, 1, 1, 1, 0] [0, 1, 2, 3, 4])
          + qualRunCount 3 (baseWeights [0, 1, 1, 1, 0] [0, 1, 2, 3, 4]) :=
  ⟨by decide, C7_round_trip [0, 1, 1, 1, 0] [0, 1, 2, 3, 4] 3
    ["first_day", "middle_days", "middle_days", "last_day", "Friday"]
    (by decide) (by decide) (by decide) (by decide) (by decide)⟩

end MetroHolidays
